import Mathlib

/-
Verification of the grocery price-comparison core:
- text normalization        (api/app/services/normalization.py, api/app/services/matching/normalize.py)
- offer filtering/scoring   (api/app/services/scorer.py, api/app/services/matching/scorer.py)
- scraper aggregation       (api/app/services/scrapers/manager.py)
- basket comparison         (api/app/services/compare_service.py)

Conventions of the shallow embedding:
- Python `float` / `Decimal` prices and scores are modelled as `Rat` (exact arithmetic);
- Python insertion-ordered `dict`s are modelled as association lists built in insertion
  order (`dget` / `dset` / `buildDictAux` below);
- Python's stable `list.sort` / `sorted` is modelled by `List.insertionSort`, which uses
  the same stable `orderedInsert` placement, so it computes the same list as any stable
  sort for a total preorder;
- exceptions are modelled with `Except String`.
-/

set_option maxHeartbeats 4000000
set_option maxRecDepth 10000

/-! ## Generic association-list and list helpers -/

/-- Lookup in an insertion-ordered association list (Python `d.get(k)` / `k in d`). -/
def dget [DecidableEq κ] : List (κ × β) → κ → Option β
  | [], _ => none
  | (k, v) :: t, a => if k = a then some v else dget t a

/-- Update-or-append (Python `d[k] = v`): an existing key keeps its position, a new
key is appended at the end. -/
def dset [DecidableEq κ] : List (κ × β) → κ → β → List (κ × β)
  | [], a, b => [(a, b)]
  | (k, v) :: t, a, b => if k = a then (a, b) :: t else (k, v) :: dset t a b

/-- First-occurrence deduplication, generalized over an accumulator of already-seen
keys.  `dedupAux [] l` is the key order of a Python dict built by inserting the
elements of `l` in order. -/
def dedupAux [DecidableEq α] (seen : List α) : List α → List α
  | [] => []
  | k :: t => if k ∈ seen then dedupAux seen t else k :: dedupAux (k :: seen) t

/-- `pydedup l` : distinct elements of `l` in first-occurrence order. -/
def pydedup [DecidableEq α] (l : List α) : List α := dedupAux [] l

/-- Builds the association list of a Python dict `{k: f k for k in l}` when the stored
value depends only on the key (re-assignment on a duplicate key rewrites the same
value, so skipping it is equivalent). -/
def buildDictAux [DecidableEq κ] (f : κ → β) (seen : List κ) : List κ → List (κ × β)
  | [] => []
  | k :: t => if k ∈ seen then buildDictAux f seen t else (k, f k) :: buildDictAux f (k :: seen) t

/-- Python's stable sort (`list.sort` / `sorted`) by a boolean "less-or-equal" test:
`List.insertionSort` places an element before the later-coming equal elements, which is
exactly the stable order. -/
def sortBy (le : α → α → Bool) (l : List α) : List α :=
  List.insertionSort (fun a b => le a b = true) l

/-- Does `pat` occur at the head of the second list? (helper for substring search). -/
def prefMatch : List Char → List Char → Bool
  | [], _ => true
  | _ :: _, [] => false
  | a :: s, b :: t => a = b && prefMatch s t

/-- Substring containment on char lists: Python's `pat in text` for strings. -/
def containsSub (pat : List Char) : List Char → Bool
  | [] => prefMatch pat []
  | c :: t => prefMatch pat (c :: t) || containsSub pat t

/-- Python's `pat in text` for strings. -/
def strContains (hay pat : String) : Bool := containsSub pat.data hay.data

/-! ## Text normalization

`normalize_string` / `normalize_item_name` embed `api/app/services/normalization.py`
(lines 93-120); `Matching.normalize` embeds `api/app/services/matching/normalize.py`.
The Unicode decomposition (`unicodedata.normalize("NFKD"/"NFD", ·)`) and combining-mark
test are modelled by `decomposeChar` / `isCombiningMark`: the identity on ASCII (as in
full Unicode) and the NFD = NFKD decompositions of the Latin-1 diacritics that the
repository's data uses. -/

/-- Python whitespace (`str.strip()` / regex `\s`), ASCII part: space, TAB, LF, CR, VT, FF. -/
def isPySpace (c : Char) : Bool :=
  c.toNat = 32 || c.toNat = 9 || c.toNat = 10 || c.toNat = 13 || c.toNat = 11 || c.toNat = 12

/-- Python `str.lower()` on the ASCII and Latin-1 letters. -/
def pyLowerChar (c : Char) : Char :=
  if 65 ≤ c.toNat ∧ c.toNat ≤ 90 then Char.ofNat (c.toNat + 32)
  else if 192 ≤ c.toNat ∧ c.toNat ≤ 222 ∧ c.toNat ≠ 215 then Char.ofNat (c.toNat + 32)
  else c

/-- Combining diacritical marks (Unicode block U+0300 - U+036F); this is the
`unicodedata.combining(c) != 0` / `category(c) == "Mn"` test for the marks produced by
`decomposeChar`, and `false` on all ASCII. -/
def isCombiningMark (c : Char) : Bool := 768 ≤ c.toNat && c.toNat ≤ 879

/-- Canonical decomposition of one character (NFD; NFKD agrees on these characters):
identity on ASCII, and base letter + combining mark for the Latin diacritics. -/
def decomposeChar (c : Char) : List Char :=
  if c.toNat < 128 then [c] else
  match c with
  | 'á' => ['a', Char.ofNat 769] | 'é' => ['e', Char.ofNat 769] | 'í' => ['i', Char.ofNat 769]
  | 'ó' => ['o', Char.ofNat 769] | 'ú' => ['u', Char.ofNat 769]
  | 'à' => ['a', Char.ofNat 768] | 'è' => ['e', Char.ofNat 768] | 'ì' => ['i', Char.ofNat 768]
  | 'ò' => ['o', Char.ofNat 768] | 'ù' => ['u', Char.ofNat 768]
  | 'ä' => ['a', Char.ofNat 776] | 'ë' => ['e', Char.ofNat 776] | 'ï' => ['i', Char.ofNat 776]
  | 'ö' => ['o', Char.ofNat 776] | 'ü' => ['u', Char.ofNat 776]
  | 'â' => ['a', Char.ofNat 770] | 'ê' => ['e', Char.ofNat 770] | 'î' => ['i', Char.ofNat 770]
  | 'ô' => ['o', Char.ofNat 770] | 'û' => ['u', Char.ofNat 770]
  | 'ñ' => ['n', Char.ofNat 771] | 'ç' => ['c', Char.ofNat 807]
  | 'Á' => ['A', Char.ofNat 769] | 'É' => ['E', Char.ofNat 769] | 'Í' => ['I', Char.ofNat 769]
  | 'Ó' => ['O', Char.ofNat 769] | 'Ú' => ['U', Char.ofNat 769]
  | 'Ñ' => ['N', Char.ofNat 771] | 'Ü' => ['U', Char.ofNat 776] | 'Ç' => ['C', Char.ofNat 807]
  | _ => [c]

/-- NFKD-decompose and drop combining marks (`remove_accents`, normalization.py 93-97;
also the NFD + `category != "Mn"` filter of matching/normalize.py lines 10-11). -/
def removeAccentsL (l : List Char) : List Char :=
  (l.flatMap decomposeChar).filter (fun c => !isCombiningMark c)

/-- Drop trailing characters satisfying `p` (the right half of Python `str.strip()`). -/
def dropTrail (p : Char → Bool) : List Char → List Char
  | [] => []
  | c :: t =>
    let r := dropTrail p t
    if r.isEmpty && p c then [] else c :: r

/-- Python `str.strip()`. -/
def pyStrip (l : List Char) : List Char := dropTrail isPySpace (l.dropWhile isPySpace)

/-- Collapse every maximal run of whitespace to a single `' '`
(`re.sub(r"\s+", " ", s)`). -/
def collapseWs : List Char → List Char
  | [] => []
  | c :: t =>
    if isPySpace c then
      match t with
      | [] => [' ']
      | c2 :: _ => if isPySpace c2 then collapseWs t else ' ' :: collapseWs t
    else c :: collapseWs t

/-- Characters kept by the regex `[^a-z0-9%\s]` of normalization.py line 107
(besides whitespace). -/
def keepNS (c : Char) : Bool :=
  (97 ≤ c.toNat && c.toNat ≤ 122) || (48 ≤ c.toNat && c.toNat ≤ 57) || c.toNat = 37

/-- Characters kept by the regex `[^a-z0-9\s+]` of matching/normalize.py line 12
(besides whitespace). -/
def keepMN (c : Char) : Bool :=
  (97 ≤ c.toNat && c.toNat ≤ 122) || (48 ≤ c.toNat && c.toNat ≤ 57) || c.toNat = 43

/-- One step of `re.sub(r"[^...\s]", " ", s)`: keep base characters and whitespace,
replace everything else by a space. -/
def subChar (base : Char → Bool) (c : Char) : Char :=
  if base c || isPySpace c then c else ' '

/-- `normalize_string` (normalization.py lines 100-109): empty-check, strip, lower,
NFKD + drop combining marks, replace chars outside `[a-z0-9%\s]` with a space,
collapse whitespace, strip. -/
def normalize_string (s : String) : String :=
  if s.data = [] then "" else
  String.mk (pyStrip (collapseWs
    (((removeAccentsL ((pyStrip s.data).map pyLowerChar)).map (subChar keepNS)))))

/-- `SYNONYMS_MAP` (normalization.py lines 23-63), in source order. -/
def SYNONYMS_MAP : List (String × String) :=
  [("bell pepper", "bell pepper"), ("capsicum", "bell pepper"), ("sweet pepper", "bell pepper"),
   ("eggplant", "eggplant"), ("aubergine", "eggplant"),
   ("zucchini", "zucchini"), ("courgette", "zucchini"),
   ("cilantro", "cilantro"), ("coriander", "cilantro"), ("fresh coriander", "cilantro"),
   ("arugula", "arugula"), ("rocket", "arugula"), ("rocket lettuce", "arugula"),
   ("scallion", "green onion"), ("green onion", "green onion"), ("spring onion", "green onion"),
   ("ground beef", "ground beef"), ("minced beef", "ground beef"),
   ("ground turkey", "ground turkey"), ("minced turkey", "ground turkey"),
   ("ice cream", "ice cream"), ("icecream", "ice cream"),
   ("hot dog", "hot dog"), ("hotdog", "hot dog"), ("frankfurter", "hot dog"),
   ("ketchup", "ketchup"), ("tomato sauce", "ketchup"), ("catsup", "ketchup")]

/-- `normalize_item_name` (normalization.py lines 112-120): `normalize_string`, then
the synonym table by exact full-string match. -/
def normalize_item_name (s : String) : String :=
  let base := normalize_string s
  if base = "" then "" else
  match dget SYNONYMS_MAP base with
  | some c => c
  | none => base

namespace Matching

/-- `normalize` (matching/normalize.py lines 5-14): empty-check, lower, NFD + drop
combining marks, replace chars outside `[a-z0-9\s+]` with a space, collapse
whitespace, strip.  Note: it keeps `+` and replaces `%` with a space. -/
def normalize (s : String) : String :=
  if s.data = [] then "" else
  String.mk (pyStrip (collapseWs
    ((removeAccentsL (s.data.map pyLowerChar)).map (subChar keepMN))))

end Matching

/-- Python `str.lower()` on a string. -/
def pyLowerStr (s : String) : String := String.mk (s.data.map pyLowerChar)

/-- Python `str.strip()` on a string. -/
def pyStripStr (s : String) : String := String.mk (pyStrip s.data)

/-- Helper for `pySplit`: `cur` is the current word, reversed. -/
def pySplitAux (cur : List Char) : List Char → List String
  | [] => if cur.isEmpty then [] else [String.mk cur.reverse]
  | c :: t =>
    if isPySpace c then
      if cur.isEmpty then pySplitAux [] t else String.mk cur.reverse :: pySplitAux [] t
    else pySplitAux (c :: cur) t

/-- Python `str.split()` with no arguments: split on whitespace runs, no empty words. -/
def pySplit (s : String) : List String := pySplitAux [] s.data

/-! ## Offer scoring and ranking (`api/app/services/scorer.py`)

Offers there are dicts; the fields the scorer reads are modelled as `POffer`.  A raw
price that is missing or unparsable (`_safe_price` returns `None`) is `none`.  The
global `CATEGORY_RULES` table (loaded from YAML at import time) is threaded as the
`rules` parameter. -/

/-- One category's configured rule sets (normalization.py lines 66-87: each list
defaults to empty). -/
structure CatRule where
  base_terms : List String
  optional_terms : List String
  forbidden_terms : List String
deriving DecidableEq

/-- `CATEGORY_RULES.get(cat, {})` followed by `.get(..., [])` on each field. -/
def rulesGet (rules : List (String × CatRule)) (cat : String) : CatRule :=
  (dget rules cat).getD ⟨[], [], []⟩

/-- The per-category hits recorded in `ProductSpec.matched_rules`. -/
structure MatchInfo where
  matched_base : List String
  matched_optional : List String
  matched_forbidden : List String
deriving DecidableEq

/-- `ProductSpec` (normalization.py lines 165-172). -/
structure ProductSpec where
  name : String
  tokens : List String
  brand : Option String
  category : Option String
  variants : List String
  matched_rules : List (String × MatchInfo)
deriving DecidableEq

/-- The offer fields read by scorer.py (`offer.get("name"/"category"/"description"/"price")`).
`price` is the result of `_safe_price`: `none` for a missing or unparsable price. -/
structure POffer where
  name : Option String
  category : Option String
  description : Option String
  price : Option Rat
deriving DecidableEq

/-- The normalized text blob of scorer.py lines 33-38 and 69-74:
`normalize_string(" ".join([name or "", category or "", description or ""]))`. -/
def offerBlob (o : POffer) : String :=
  normalize_string (o.name.getD "" ++ " " ++ o.category.getD "" ++ " " ++ o.description.getD "")

/-- `hard_filters_fail` (scorer.py lines 31-60): reject iff some matched category has a
nonempty forbidden term whose normalization occurs as a substring of the blob.
(The category-equality block at lines 52-57 is a no-op in the source and the price
check at line 59 never rejects.) -/
def hard_filters_fail (rules : List (String × CatRule)) (spec : ProductSpec) (offer : POffer) :
    Bool :=
  let text := offerBlob offer
  spec.matched_rules.any (fun p =>
    (rulesGet rules p.1).forbidden_terms.any (fun forb =>
      if forb = "" then false else strContains text (normalize_string forb)))

/-- Tunable weights (scorer.py lines 11-18), as exact rationals. -/
def W_category : Rat := 40
/-- Brand weight. -/
def W_brand : Rat := 25
/-- Variant weight. -/
def W_variant : Rat := 10
/-- Token-overlap weight. -/
def W_token_overlap : Rat := 1
/-- Price-rank bonus weight. -/
def W_price_bonus : Rat := 3
/-- Forbidden-term penalty. -/
def W_irrelevant_penalty : Rat := -20

/-- `score_offer` (scorer.py lines 63-116).  The Python float constant `0.6` is the
exact rational `3/5` here. -/
def score_offer (rules : List (String × CatRule)) (spec : ProductSpec) (offer : POffer)
    (price_rank_score : Rat) : Option Rat :=
  if hard_filters_fail rules spec offer then none else
  let text := offerBlob offer
  let tokens := pydedup spec.tokens
  -- category alignment: the first matched rule with a nonempty matched_base (`break`)
  let catScore : Rat :=
    match spec.matched_rules.find? (fun p => !p.2.matched_base.isEmpty) with
    | some p =>
      let offer_cat := normalize_string (offer.category.getD "")
      if offer_cat ≠ "" ∧ strContains offer_cat p.1 then W_category else W_category * (3/5)
    | none => 0
  let brandScore : Rat :=
    match spec.brand with
    | some b => if b ≠ "" ∧ strContains text b then W_brand else 0
    | none => 0
  let variantScore : Rat :=
    ((spec.variants.filter (fun v => v ≠ "" ∧ strContains text v)).length : Rat) * W_variant
  let overlap : Nat := (tokens.filter (fun t => t ∈ pySplit text)).length
  let forbCount : Nat :=
    (spec.matched_rules.map (fun p =>
      ((rulesGet rules p.1).forbidden_terms.filter (fun forb =>
        forb ≠ "" ∧ strContains text (normalize_string forb))).length)).sum
  some (catScore + brandScore + variantScore + (overlap : Rat) * W_token_overlap
    + price_rank_score * W_price_bonus + (forbCount : Rat) * W_irrelevant_penalty)

/-- An offer annotated with its `_orig_index` (filter_and_pick_best, scorer.py
lines 127-131); its `_price` is the `price` field of the first component. -/
abbrev AnnOffer := POffer × Nat

/-- The `normalized_offers` list: each offer paired with its original index. -/
def annotate (offers : List POffer) : List AnnOffer :=
  offers.enum.map (fun p => (p.2, p.1))

/-- Order on `_price` keys: Python's `(p is None, p if p is not None else inf)` tuple,
so all priced offers come before all unpriced ones. -/
def priceLe (p q : Option Rat) : Bool :=
  match p, q with
  | none, none => true
  | none, some _ => false
  | some _, none => true
  | some a, some b => a ≤ b

/-- `price_sort_key` comparison between annotated offers. -/
def priceKeyLe (x y : AnnOffer) : Bool := priceLe x.1.price y.1.price

/-- The offers surviving the hard filter (scorer.py line 134). -/
def survivorsOf (rules : List (String × CatRule)) (spec : ProductSpec) (offers : List POffer) :
    List AnnOffer :=
  (annotate offers).filter (fun a => !hard_filters_fail rules spec a.1)

/-- `price_rank_map` (scorer.py lines 144-148): `_orig_index ↦ (n - i) / n` over the
price-sorted survivors (the original indices are pairwise distinct). -/
def priceRankMap (filtered : List AnnOffer) : List (Nat × Rat) :=
  let owp := sortBy priceKeyLe filtered
  owp.enum.map (fun p => (p.2.2, ((owp.length - p.1 : Nat) : Rat) / (owp.length : Rat)))

/-- `price_rank_map.get(o["_orig_index"], 0.0)`. -/
def prScore (filtered : List AnnOffer) (a : AnnOffer) : Rat :=
  (dget (priceRankMap filtered) a.2).getD 0

/-- `sort_key` comparison of scorer.py lines 161-163: score descending, then price
ascending with unpriced last (the tuple `(-score, price or inf)`). -/
def scoreKeyLe (x y : Rat × AnnOffer) : Bool :=
  if y.1 < x.1 then true
  else if x.1 = y.1 then priceLe x.2.1.price y.2.1.price
  else false

/-- `filter_and_pick_best` (scorer.py lines 119-169). -/
def filter_and_pick_best (rules : List (String × CatRule)) (spec : ProductSpec)
    (offers : List POffer) (top_k : Nat) : Option AnnOffer × List AnnOffer :=
  if offers.isEmpty then (none, []) else
  let filtered := survivorsOf rules spec offers
  if filtered.isEmpty then (none, []) else
  let scored := filtered.filterMap (fun o =>
    (score_offer rules spec o.1 (prScore filtered o)).map (fun s => (s, o)))
  if scored.isEmpty then (none, []) else
  let rankedAll := (sortBy scoreKeyLe scored).map (fun t => t.2)
  match rankedAll with
  | [] => (none, [])
  | b :: _ => (some b, rankedAll.take top_k)

/-! ## Scraper aggregation (`api/app/services/scrapers/manager.py`)

A scraper's `search` either returns offers or raises; raising is modelled with
`Except String`.  A `ScraperManager` is its insertion-ordered `scrapers` dict, whose
keys the constructor lowercases. -/

/-- The `Offer` model of scrapers/base.py restricted to the fields this verification
reads (`brand`, `url`, `image_url`, `normalized_name` are never consulted here). -/
structure Offer where
  store : String
  name : String
  price : Rat
deriving DecidableEq

/-- A source's `search(query)` capability; `Except.error` models a raised exception. -/
abbrev Scraper := String → Except String (List Offer)

/-- `ScraperManager.get_offers` (manager.py lines 80-139): call every scraper in
order, catch any exception and treat the store as contributing nothing. -/
def get_offers (scrapers : List (String × Scraper)) (query : String) : List Offer :=
  scrapers.foldl (fun acc p =>
    match p.2 query with
    | Except.ok offers => acc ++ offers
    | Except.error _ => acc) []

/-- `ScraperManager.get_offers_by_store` (manager.py lines 196-218): unknown store
names give an empty result; a known scraper's `search` is called with **no**
exception handling, so its error propagates. -/
def get_offers_by_store (scrapers : List (String × Scraper)) (store query : String) :
    Except String (List Offer) :=
  match dget scrapers (pyLowerStr store) with
  | none => Except.ok []
  | some s => s query

/-! ## Basket comparison (`api/app/services/compare_service.py`, `compare_basket`)

The catalog rows the function queries through SQLAlchemy are modelled as the lists of
a `DB` value; `Decimal` prices are `Rat` (exact, as `Decimal` arithmetic is here), and
the final `float(...)` conversions are identities of the model. -/

/-- A `Product` row (id, name). -/
structure Product where
  id : Nat
  name : String
deriving DecidableEq

/-- A `Supermarket` row (id, name). -/
structure Supermarket where
  id : Nat
  name : String
deriving DecidableEq

/-- A `Price` row. -/
structure PriceRow where
  product_id : Nat
  store_id : Nat
  price : Rat
deriving DecidableEq

/-- The catalog the queries read, in row order. -/
structure DB where
  products : List Product
  stores : List Supermarket
  prices : List PriceRow
deriving DecidableEq

/-- `CompareRequest` (items and stores as sent by the caller). -/
structure CompareRequest where
  items : List String
  stores : List String
deriving DecidableEq

/-- `CompareItem` of the response. -/
structure CompareItem where
  name : String
  store : String
  price : Rat
deriving DecidableEq

/-- `StoreTotal` of the response. -/
structure StoreTotal where
  store : String
  total : Rat
deriving DecidableEq

/-- `CompareResponse`. -/
structure CompareResponse where
  items : List CompareItem
  storeTotals : List StoreTotal
  overallTotal : Rat
  unmatched : List String
deriving DecidableEq

/-- Step 2 (compare_service.py lines 118-125): normalized product name -> product,
skipping empty normalizations, first match wins. -/
def productIndex (db : DB) : List (String × Product) :=
  db.products.foldl (fun m p =>
    let np := normalize_item_name p.name
    if np ≠ "" ∧ (dget m np).isNone then m ++ [(np, p)] else m) []

/-- The product a requested item resolves to (exact match on normalized names);
`item_to_product[item]` of compare_service.py lines 128-138. -/
def itemProduct (db : DB) (item : String) : Option Product :=
  dget (productIndex db) (normalize_item_name item)

/-- Step 3 (lines 141-146): lowercased-trimmed store name -> store, first match wins. -/
def storeIndex (db : DB) : List (String × Supermarket) :=
  db.stores.foldl (fun m s =>
    let k := pyStripStr (pyLowerStr s.name)
    if (dget m k).isNone then m ++ [(k, s)] else m) []

/-- `store_objs` (lines 149-153): resolve each requested store name, silently
dropping the unresolved ones. -/
def resolveStores (db : DB) (stores : List String) : List Supermarket :=
  stores.filterMap (fun sn => dget (storeIndex db) (pyStripStr (pyLowerStr sn)))

/-- Step 4 (lines 169-185): `(product_id, store_id) ↦ price`, keeping the minimum over
duplicate rows.  The SQL `IN (...)` filters are the membership tests (with them, the
guard `if product_ids and store_ids` of line 171 is equivalent to this fold). -/
def pricesMap (db : DB) (product_ids store_ids : List Nat) : List ((Nat × Nat) × Rat) :=
  db.prices.foldl (fun m pr =>
    if pr.product_id ∈ product_ids ∧ pr.store_id ∈ store_ids then
      match dget m (pr.product_id, pr.store_id) with
      | none => m ++ [((pr.product_id, pr.store_id), pr.price)]
      | some old => dset m (pr.product_id, pr.store_id) (min old pr.price)
    else m) []

/-- `min(candidates, key=lambda x: x[1])[1]` (line 212): the minimal price value. -/
def minSnd (c : Nat × Rat) (cs : List (Nat × Rat)) : Rat :=
  cs.foldl (fun acc x => if x.2 < acc then x.2 else acc) c.2

/-- The tie-break sort key of line 219: `(store_totals[x[0]], x[0])`, ascending. -/
def tieLe (totals : List (Nat × Rat)) (x y : Nat × Rat) : Bool :=
  let tx := (dget totals x.1).getD 0
  let ty := (dget totals y.1).getD 0
  if tx < ty then true else if tx = ty then decide (x.1 ≤ y.1) else false

/-- Lines 211-222: select the store for one item from its priced candidates —
minimal price, ties broken by lowest running subtotal, then lowest store id. -/
def pickStore (totals : List (Nat × Rat)) : List (Nat × Rat) → Option (Nat × Rat)
  | [] => none
  | c :: cs =>
    let min_price := minSnd c cs
    let mps := (c :: cs).filter (fun x => x.2 = min_price)
    let mps := if 1 < mps.length then sortBy (tieLe totals) mps else mps
    mps.head?

/-- The mutable state of the per-item loop (lines 188-233). -/
structure LoopState where
  citems : List CompareItem
  totals : List (Nat × Rat)
  unmatched : List String
deriving DecidableEq

/-- One iteration of `for item in request.items` (lines 193-233). -/
def loopStep (db : DB) (pm : List ((Nat × Nat) × Rat)) (store_ids : List Nat)
    (storeName : List (Nat × String)) (st : LoopState) (item : String) : LoopState :=
  match itemProduct db item with
  | none => st
  | some product =>
    let candidates := store_ids.filterMap (fun sid =>
      (dget pm (product.id, sid)).map (fun p => (sid, p)))
    match pickStore st.totals candidates with
    | none =>
      if item ∈ st.unmatched then st else { st with unmatched := st.unmatched ++ [item] }
    | some sel =>
      { citems := st.citems ++ [⟨item, (dget storeName sel.1).getD "", sel.2⟩],
        totals := dset st.totals sel.1 (((dget st.totals sel.1).getD 0) + sel.2),
        unmatched := st.unmatched }

/-- The complete-basket total of one store (lines 243-252): walk `request.items`,
adding the price of each matched item that this store prices. -/
def completeTotal (db : DB) (items : List String) (pm : List ((Nat × Nat) × Rat))
    (sid : Nat) : Rat :=
  items.foldl (fun acc item =>
    match itemProduct db item with
    | none => acc
    | some p =>
      match dget pm (p.id, sid) with
      | some pr => acc + pr
      | none => acc) 0

/-- Lines 255-262: the minimum of the positive entries, or 0 if there is none. -/
def minPositive (totals : List Rat) : Rat :=
  match totals.filter (fun t => 0 < t) with
  | [] => 0
  | p :: ps => ps.foldl min p

/-- `store_id_to_name` (line 190): `{s.id: s.name for s in store_objs}`. -/
def storeNameMap (store_objs : List Supermarket) : List (Nat × String) :=
  store_objs.foldl (fun m s => dset m s.id s.name) []

/-- `compare_basket` after store resolution: everything the function does once
`store_objs` is computed (lines 155-269). -/
def compareBasketCore (items : List String) (store_objs : List Supermarket) (db : DB) :
    CompareResponse :=
  if store_objs.isEmpty then ⟨[], [], 0, items⟩ else
  let unmatched0 := items.filter (fun it => (itemProduct db it).isNone)
  let product_ids := (pydedup items).filterMap (fun it => (itemProduct db it).map (·.id))
  let store_ids := store_objs.map (·.id)
  let pm := pricesMap db product_ids store_ids
  let storeName := storeNameMap store_objs
  let init : LoopState := ⟨[], buildDictAux (fun _ => (0 : Rat)) [] store_ids, unmatched0⟩
  let fin := items.foldl (loopStep db pm store_ids storeName) init
  let store_totals_list := fin.totals.map (fun p => StoreTotal.mk ((dget storeName p.1).getD "") p.2)
  let completeTotals := buildDictAux (completeTotal db items pm) [] store_ids
  let overall := if completeTotals.isEmpty then 0 else minPositive (completeTotals.map (·.2))
  ⟨fin.citems, store_totals_list, overall, fin.unmatched⟩

/-- `CompareService.compare_basket` (compare_service.py lines 96-269). -/
def compare_basket (req : CompareRequest) (db : DB) : CompareResponse :=
  compareBasketCore req.items (resolveStores db req.stores) db

/-! ## The matching-engine scorer (`api/app/services/matching/scorer.py`)

This is the second, divergent implementation of filtering/ranking: hard rules are
token-set based over the offer **name** only, and ranking sorts by price first. -/

namespace Matching

/-- `STOPWORDS` (matching/filters.py line 5). -/
def STOPWORDS : List String :=
  ["de", "con", "y", "en", "para", "el", "la", "los", "las", "del", "al"]

/-- `CATEGORY_RULES` (matching/filters.py lines 8-41); `optional_terms` is absent in
this table. -/
def CATEGORY_RULES : List (String × CatRule) :=
  [("milk", ⟨["leche"], [],
    ["chocolate", "cacao", "batido", "cappuccino", "espresso", "fruta", "tropical",
     "mediterraneo", "caribe", "cereales", "galletas", "rellenos", "facial", "corporal",
     "limpiadora", "polvo", "lactantes", "continuacion", "infantil"]⟩),
   ("eggs", ⟨["huevo", "huevos"], [], ["chocolate", "pascua", "mona", "caramelo", "bombon"]⟩),
   ("bread", ⟨["pan"], [], ["galletas", "bolleria", "bizcocho", "magdalenas"]⟩)]

/-- `get_category_rules` (matching/filters.py lines 44-45). -/
def get_category_rules (cat : String) : CatRule := (dget CATEGORY_RULES cat).getD ⟨[], [], []⟩

/-- The `ProductSpec` dataclass of matching/spec.py. -/
structure ProductSpec where
  category_code : String
  category_label : String
  brand : Option String
  variants : List String
  quantity : Rat
  unit : String

/-- `score_offer` (matching/scorer.py lines 8-49).  Python sets of tokens are
first-occurrence-deduplicated lists; `-1e9` is the kill score. -/
def score_offer (spec : ProductSpec) (offer : Offer) : Rat :=
  let tokens := pydedup (pySplit (normalize offer.name))
  let rules := get_category_rules spec.category_code
  let base_terms := pydedup rules.base_terms
  let forbidden_terms := pydedup rules.forbidden_terms
  -- HARD RULE 1: must contain at least one base term (if defined)
  if !base_terms.isEmpty && !(base_terms.any (· ∈ tokens)) then -1000000000 else
  -- HARD RULE 2: forbidden terms kill
  if !forbidden_terms.isEmpty && forbidden_terms.any (· ∈ tokens) then -1000000000 else
  let variant_tokens := pydedup (spec.variants.flatMap (fun v => pySplit (normalize v)))
  let sVariants : Rat := 2 * ((variant_tokens.filter (· ∈ tokens)).length : Rat)
  let sBrand : Rat :=
    match spec.brand with
    | some b =>
      if b ≠ "" then
        (if (pydedup (pySplit (normalize b))).any (· ∈ tokens) then 3 else -2)
      else 0
    | none => 0
  let cat_tokens := pydedup (pySplit (normalize spec.category_label))
  let sCat : Rat := (3/2) * ((cat_tokens.filter (· ∈ tokens)).length : Rat)
  let relevant := variant_tokens ++ cat_tokens
  let extra := tokens.filter (fun t => t ∉ relevant ∧ t ∉ STOPWORDS)
  sVariants + sBrand + sCat - (1/10) * (extra.length : Rat)

/-- The sort key of matching/scorer.py line 68: `(t[1].price, -t[0])` —
price ascending first, then score descending. -/
def mRankLe (x y : Rat × Offer) : Bool :=
  if x.2.price < y.2.price then true
  else if x.2.price = y.2.price then decide (y.1 ≤ x.1)
  else false

/-- `filter_and_pick_best` (matching/scorer.py lines 52-72). -/
def filter_and_pick_best (spec : ProductSpec) (offers : List Offer) :
    Option Offer × List Offer :=
  let scored := offers.filterMap (fun o =>
    let s := score_offer spec o
    if s > -100000000 then some (s, o) else none)
  match scored with
  | [] => (none, [])
  | _ :: _ =>
    match sortBy mRankLe scored with
    | [] => (none, [])
    | (s, b) :: rest => (some b, ((s, b) :: rest).map (·.2))

end Matching

/-! ## Auxiliary predicates and claim-side specifications -/

/-- No two adjacent whitespace characters (invariant of collapsed text). -/
def noDbl : List Char → Bool
  | a :: b :: t => (!(isPySpace a && isPySpace b)) && noDbl (b :: t)
  | _ => true

/-- A character that can occur in normalizer output: a kept base character or `' '`. -/
def isOutChar (base : Char → Bool) (c : Char) : Prop := base c = true ∨ c = ' '

/-- The kept-character sets of both normalizers consist of ASCII lower letters,
digits, `%` (37) or `+` (43). -/
def goodBase (base : Char → Bool) : Prop :=
  ∀ c, base c = true →
    (97 ≤ c.toNat ∧ c.toNat ≤ 122) ∨ (48 ≤ c.toNat ∧ c.toNat ≤ 57) ∨
    c.toNat = 37 ∨ c.toNat = 43

/-- The score attached to a survivor inside `filter_and_pick_best` (its `score_offer`
result is always `some` there, `getD 0` just unwraps it). -/
def annScore (rules : List (String × CatRule)) (spec : ProductSpec)
    (filtered : List AnnOffer) (o : AnnOffer) : Rat :=
  (score_offer rules spec o.1 (prScore filtered o)).getD 0

/-- The ranking order stated by the spec, evaluated at the scores the pipeline
computes: score descending, ties by ascending price with unpriced offers last. -/
def rankLeAt (rules : List (String × CatRule)) (spec : ProductSpec)
    (filtered : List AnnOffer) (x y : AnnOffer) : Prop :=
  scoreKeyLe (annScore rules spec filtered x, x) (annScore rules spec filtered y, y) = true

/-- Does store `sid` price every matched item of the request? (the condition the
claim about `overallTotal` uses). -/
def storePricesAllMatched (db : DB) (items : List String) (pm : List ((Nat × Nat) × Rat))
    (sid : Nat) : Bool :=
  items.all (fun it =>
    match itemProduct db it with
    | none => true
    | some p => (dget pm (p.id, sid)).isSome)

/-- The price matrix `compare_basket` works with, as a function of the request. -/
def requestPricesMap (req : CompareRequest) (db : DB) : List ((Nat × Nat) × Rat) :=
  pricesMap db
    ((pydedup req.items).filterMap (fun it => (itemProduct db it).map (·.id)))
    ((resolveStores db req.stores).map (·.id))

/-- Specification of `overallTotal`, written from the price matrix alone,
independently of the greedy per-item assignment: for each distinct resolved store the
complete-basket total sums the price of every matched item occurrence at that store
(skipping items the store does not price); the result is the minimum positive such
total, or 0 if no store has a positive one. -/
def overallTotalSpec (req : CompareRequest) (db : DB) : Rat :=
  minPositive ((pydedup ((resolveStores db req.stores).map (·.id))).map (fun sid =>
    (req.items.filterMap (fun it =>
      (itemProduct db it).bind (fun p => dget (requestPricesMap req db) (p.id, sid)))).sum))

/-- The claim as frozen: `overallTotal` is the minimum positive complete-basket total,
**or 0 if no store prices every matched item**. -/
def claimC1 (req : CompareRequest) (db : DB) : Prop :=
  ((pydedup ((resolveStores db req.stores).map (·.id))).any
      (storePricesAllMatched db req.items (requestPricesMap req db)) = true →
    (compare_basket req db).overallTotal = overallTotalSpec req db) ∧
  ((pydedup ((resolveStores db req.stores).map (·.id))).any
      (storePricesAllMatched db req.items (requestPricesMap req db)) = false →
    (compare_basket req db).overallTotal = 0)

/-! ## Concrete inputs used by the claim scenarios -/

/-- Catalog for the tie-break scenario: Milk priced only at Target, Butter priced
the same at both stores. -/
def tieDb : DB :=
  ⟨[⟨1, "Milk"⟩, ⟨2, "Butter"⟩],
   [⟨1, "Walmart"⟩, ⟨2, "Target"⟩],
   [⟨1, 2, 249/100⟩, ⟨2, 1, 4⟩, ⟨2, 2, 4⟩]⟩

/-- Request of the tie-break scenario. -/
def tieReq : CompareRequest := ⟨["Milk", "Butter"], ["Walmart", "Target"]⟩

/-- Catalog where each of the two matched items is priced at exactly one (different)
store, so no store prices every matched item. -/
def splitDb : DB :=
  ⟨[⟨1, "Apples"⟩, ⟨2, "Bread"⟩],
   [⟨1, "Walmart"⟩, ⟨2, "Target"⟩],
   [⟨1, 1, 2⟩, ⟨2, 2, 3⟩]⟩

/-- Request over `splitDb`. -/
def splitReq : CompareRequest := ⟨["Apples", "Bread"], ["Walmart", "Target"]⟩

/-- A matching-engine spec for the `milk` category. -/
def specMilkM : Matching.ProductSpec := ⟨"milk", "Leche", none, [], 1, "l"⟩

/-- A plain milk offer (price 2). -/
def offLecheM : Offer := ⟨"s1", "leche", 2⟩

/-- A cheaper but lower-scoring milk offer. -/
def offBarataM : Offer := ⟨"s2", "leche barata", 1⟩

/-- An offer whose name contains the forbidden term "chocolate" strictly inside a
longer word. -/
def offChocoM : Offer := ⟨"s1", "leche chocolateada", 1⟩

/-- A canonical-scorer spec that matched the `milk` category. -/
def specMilkNS : ProductSpec :=
  ⟨"milk", ["leche"], none, none, [], [("milk", ⟨["leche"], [], []⟩)]⟩

/-- The offer of the hard-filter scenario. -/
def offChocoNS : POffer := ⟨some "Leche con chocolate 1L", none, none, some 1⟩

/-- A surviving offer for the canonical scorer. -/
def offLecheNS : POffer := ⟨some "leche entera", none, none, some 2⟩

/-- A source whose `search` raises on every call. -/
def boomScraper : Scraper := fun _ => Except.error "boom"

/-- A source that returns one offer. -/
def okScraper : Scraper := fun _ => Except.ok [⟨"mercadona", "leche entera", 89/100⟩]

/-! # Lemmas and claim theorems

Generic lemmas come first; the claim theorems are named `C1_...` to `C10_...`. -/

theorem dget_mem [DecidableEq κ] {m : List (κ × β)} {k : κ} {v : β}
    (h : dget m k = some v) : (k, v) ∈ m := by
  induction m with
  | nil => simp [dget] at h
  | cons p t ih =>
    obtain ⟨k', v'⟩ := p
    by_cases hk : k' = k
    · subst hk
      simp [dget] at h
      simp [h]
    · simp only [dget, if_neg hk] at h
      exact List.mem_cons_of_mem _ (ih h)

/-! ## Normalization: character-level lemmas -/

theorem goodBase_keepNS : goodBase keepNS := by
  intro c h
  simp only [keepNS, Bool.or_eq_true, Bool.and_eq_true, decide_eq_true_eq] at h
  omega

theorem goodBase_keepMN : goodBase keepMN := by
  intro c h
  simp only [keepMN, Bool.or_eq_true, Bool.and_eq_true, decide_eq_true_eq] at h
  omega

theorem base_not_space {base : Char → Bool} (hgb : goodBase base) {c : Char}
    (h : base c = true) : isPySpace c = false := by
  have hc := hgb c h
  simp only [isPySpace, Bool.or_eq_false_iff, decide_eq_false_iff_not]
  omega

theorem base_lt128 {base : Char → Bool} (hgb : goodBase base) {c : Char}
    (h : base c = true) : c.toNat < 128 := by
  have hc := hgb c h
  omega

theorem outChar_lt128 {base : Char → Bool} (hgb : goodBase base) {c : Char}
    (h : isOutChar base c) : c.toNat < 128 := by
  rcases h with h | rfl
  · exact base_lt128 hgb h
  · decide

theorem outChar_not_space_eq {base : Char → Bool} (hgb : goodBase base) {c : Char}
    (h : isOutChar base c) (hs : isPySpace c = true) : c = ' ' := by
  rcases h with h | rfl
  · rw [base_not_space hgb h] at hs
    cases hs
  · rfl

theorem outChar_lower {base : Char → Bool} (hgb : goodBase base) {c : Char}
    (h : isOutChar base c) : pyLowerChar c = c := by
  rcases h with h | rfl
  · have hc := hgb c h
    simp only [pyLowerChar]
    rw [if_neg (by omega), if_neg (by omega)]
  · decide

theorem decomposeChar_ascii {c : Char} (h : c.toNat < 128) : decomposeChar c = [c] := by
  simp only [decomposeChar]
  rw [if_pos h]

theorem isCombiningMark_ascii {c : Char} (h : c.toNat < 128) : isCombiningMark c = false := by
  simp only [isCombiningMark, Bool.and_eq_false_iff, decide_eq_false_iff_not]
  omega

theorem outChar_sub {base : Char → Bool} {c : Char} (h : isOutChar base c) :
    subChar base c = c := by
  rcases h with h | rfl
  · simp [subChar, h]
  · have hsp : isPySpace ' ' = true := by decide
    simp [subChar, hsp]

/-! ## Normalization: list-level lemmas -/

theorem map_fix {f : Char → Char} {l : List Char} (h : ∀ c ∈ l, f c = c) : l.map f = l := by
  induction l with
  | nil => rfl
  | cons x t ih => simp_all

theorem mem_dropTrail {p : Char → Bool} {l : List Char} {c : Char}
    (h : c ∈ dropTrail p l) : c ∈ l := by
  induction l with
  | nil => simpa [dropTrail] using h
  | cons x t ih =>
    simp only [dropTrail] at h
    by_cases hc : ((dropTrail p t).isEmpty && p x) = true
    · rw [if_pos hc] at h
      cases h
    · rw [if_neg hc] at h
      rcases List.mem_cons.1 h with rfl | h
      · exact List.mem_cons_self ..
      · exact List.mem_cons_of_mem _ (ih h)

theorem mem_dropWhileSp {p : Char → Bool} {l : List Char} {c : Char}
    (h : c ∈ l.dropWhile p) : c ∈ l := by
  induction l with
  | nil => simpa using h
  | cons x t ih =>
    rw [List.dropWhile_cons] at h
    by_cases hx : p x = true
    · rw [if_pos hx] at h
      exact List.mem_cons_of_mem _ (ih h)
    · rw [if_neg hx] at h
      exact h

theorem mem_pyStrip {l : List Char} {c : Char} (h : c ∈ pyStrip l) : c ∈ l :=
  mem_dropWhileSp (mem_dropTrail h)

theorem dropWhile_head_false {p : Char → Bool} {l r : List Char} {c : Char}
    (h : l.dropWhile p = c :: r) : p c = false := by
  induction l with
  | nil => simp at h
  | cons x t ih =>
    rw [List.dropWhile_cons] at h
    by_cases hx : p x = true
    · rw [if_pos hx] at h
      exact ih h
    · rw [if_neg hx] at h
      cases h
      simpa using hx

theorem dropWhile_idem (p : Char → Bool) (l : List Char) :
    (l.dropWhile p).dropWhile p = l.dropWhile p := by
  cases hl : l.dropWhile p with
  | nil => simp
  | cons c r =>
    have hc := dropWhile_head_false hl
    rw [List.dropWhile_cons, if_neg (by simp [hc])]

theorem dropTrail_cons (p : Char → Bool) (x : Char) (t : List Char) :
    dropTrail p (x :: t) =
      if ((dropTrail p t).isEmpty && p x) = true then [] else x :: dropTrail p t := by
  simp only [dropTrail]

theorem dropTrail_idem (p : Char → Bool) (l : List Char) :
    dropTrail p (dropTrail p l) = dropTrail p l := by
  induction l with
  | nil => rfl
  | cons x t ih =>
    rw [dropTrail_cons]
    by_cases hc : ((dropTrail p t).isEmpty && p x) = true
    · rw [if_pos hc]
      rfl
    · rw [if_neg hc, dropTrail_cons, ih, if_neg hc]

theorem pyStrip_idem (l : List Char) : pyStrip (pyStrip l) = pyStrip l := by
  unfold pyStrip
  have hdw : (dropTrail isPySpace (l.dropWhile isPySpace)).dropWhile isPySpace
      = dropTrail isPySpace (l.dropWhile isPySpace) := by
    cases hd : dropTrail isPySpace (l.dropWhile isPySpace) with
    | nil => simp
    | cons c r =>
      cases hzz : l.dropWhile isPySpace with
      | nil => rw [hzz] at hd; cases hd
      | cons y s =>
        have hcy : c = y := by
          rw [hzz, dropTrail_cons] at hd
          by_cases hb : ((dropTrail isPySpace s).isEmpty && isPySpace y) = true
          · rw [if_pos hb] at hd
            cases hd
          · rw [if_neg hb] at hd
            exact (List.cons.injEq .. ▸ hd).1.symm
        have hy : isPySpace y = false := dropWhile_head_false hzz
        rw [List.dropWhile_cons, if_neg (by simp [hcy, hy])]
  rw [hdw, dropTrail_idem]

theorem collapseWs_cons_of_space_space {x c2 : Char} {s : List Char}
    (hx : isPySpace x = true) (h2 : isPySpace c2 = true) :
    collapseWs (x :: c2 :: s) = collapseWs (c2 :: s) := by
  simp only [collapseWs, hx, h2]
  rfl

theorem collapseWs_cons_of_space_nonspace {x c2 : Char} {s : List Char}
    (hx : isPySpace x = true) (h2 : isPySpace c2 = false) :
    collapseWs (x :: c2 :: s) = ' ' :: collapseWs (c2 :: s) := by
  simp only [collapseWs, hx, h2]
  rfl

theorem collapseWs_cons_not_space {c : Char} {t : List Char} (h : isPySpace c = false) :
    collapseWs (c :: t) = c :: collapseWs t := by
  simp only [collapseWs, h]
  rfl

theorem collapseWs_singleton_space {x : Char} (hx : isPySpace x = true) :
    collapseWs [x] = [' '] := by
  simp only [collapseWs, hx]
  rfl

theorem mem_collapseWs {l : List Char} {c : Char} (h : c ∈ collapseWs l) :
    c = ' ' ∨ (c ∈ l ∧ isPySpace c = false) := by
  induction l with
  | nil => simp [collapseWs] at h
  | cons x t ih =>
    by_cases hx : isPySpace x = true
    · cases t with
      | nil =>
        rw [collapseWs_singleton_space hx] at h
        simp at h
        exact Or.inl h
      | cons c2 s =>
        by_cases h2 : isPySpace c2 = true
        · rw [collapseWs_cons_of_space_space hx h2] at h
          rcases ih h with h | ⟨hm, hs⟩
          · exact Or.inl h
          · exact Or.inr ⟨List.mem_cons_of_mem _ hm, hs⟩
        · rw [collapseWs_cons_of_space_nonspace hx (by simpa using h2)] at h
          rcases List.mem_cons.1 h with rfl | h
          · exact Or.inl rfl
          · rcases ih h with h | ⟨hm, hs⟩
            · exact Or.inl h
            · exact Or.inr ⟨List.mem_cons_of_mem _ hm, hs⟩
    · rw [collapseWs_cons_not_space (by simpa using hx)] at h
      rcases List.mem_cons.1 h with rfl | h
      · exact Or.inr ⟨List.mem_cons_self .., by simpa using hx⟩
      · rcases ih h with h | ⟨hm, hs⟩
        · exact Or.inl h
        · exact Or.inr ⟨List.mem_cons_of_mem _ hm, hs⟩

theorem noDbl_cons_cons {a b : Char} {t : List Char} :
    noDbl (a :: b :: t) = ((!(isPySpace a && isPySpace b)) && noDbl (b :: t)) := by
  simp only [noDbl]

theorem noDbl_tail {a : Char} {t : List Char} (h : noDbl (a :: t) = true) :
    noDbl t = true := by
  cases t with
  | nil => rfl
  | cons b s =>
    rw [noDbl_cons_cons, Bool.and_eq_true] at h
    exact h.2

theorem noDbl_collapseWs (l : List Char) : noDbl (collapseWs l) = true := by
  induction l with
  | nil => rfl
  | cons x t ih =>
    by_cases hx : isPySpace x = true
    · cases t with
      | nil => rw [collapseWs_singleton_space hx]; rfl
      | cons c2 s =>
        by_cases h2 : isPySpace c2 = true
        · rw [collapseWs_cons_of_space_space hx h2]
          exact ih
        · have h2' : isPySpace c2 = false := by simpa using h2
          rw [collapseWs_cons_of_space_nonspace hx h2',
            collapseWs_cons_not_space h2']
          have ih' : noDbl (c2 :: collapseWs s) = true := by
            rw [← collapseWs_cons_not_space h2']
            exact ih
          rw [noDbl_cons_cons, Bool.and_eq_true]
          exact ⟨by simp [h2'], ih'⟩
    · have hx' : isPySpace x = false := by simpa using hx
      rw [collapseWs_cons_not_space hx']
      cases hct : collapseWs t with
      | nil => rfl
      | cons y r =>
        rw [noDbl_cons_cons, Bool.and_eq_true]
        exact ⟨by simp [hx'], hct ▸ ih⟩

theorem noDbl_dropWhileSp {l : List Char} (h : noDbl l = true) :
    noDbl (l.dropWhile isPySpace) = true := by
  induction l with
  | nil => simpa using h
  | cons x t ih =>
    rw [List.dropWhile_cons]
    by_cases hx : isPySpace x = true
    · rw [if_pos hx]
      exact ih (noDbl_tail h)
    · rw [if_neg hx]
      exact h

theorem dropTrail_append (p : Char → Bool) (l : List Char) :
    ∃ s, l = dropTrail p l ++ s := by
  induction l with
  | nil => exact ⟨[], rfl⟩
  | cons x t ih =>
    obtain ⟨s, hs⟩ := ih
    rw [dropTrail_cons]
    by_cases hc : ((dropTrail p t).isEmpty && p x) = true
    · exact ⟨x :: t, by rw [if_pos hc]; rfl⟩
    · refine ⟨s, ?_⟩
      rw [if_neg hc, List.cons_append]
      exact congrArg (x :: ·) hs

theorem noDbl_append_left {l₁ l₂ : List Char} (h : noDbl (l₁ ++ l₂) = true) :
    noDbl l₁ = true := by
  induction l₁ with
  | nil => rfl
  | cons a t ih =>
    cases t with
    | nil => rfl
    | cons b s =>
      simp only [List.cons_append] at h
      rw [noDbl_cons_cons, Bool.and_eq_true] at h
      rw [noDbl_cons_cons, Bool.and_eq_true]
      refine ⟨h.1, ih ?_⟩
      simpa [List.cons_append] using h.2

theorem noDbl_pyStrip {l : List Char} (h : noDbl l = true) : noDbl (pyStrip l) = true := by
  obtain ⟨s, hs⟩ := dropTrail_append isPySpace (l.dropWhile isPySpace)
  exact noDbl_append_left (hs ▸ noDbl_dropWhileSp h)

theorem subChar_not_space {base : Char → Bool} {c : Char}
    (h : isPySpace (subChar base c) = false) : base (subChar base c) = true := by
  by_cases hb : (base c || isPySpace c) = true
  · rw [subChar, if_pos hb] at h ⊢
    rcases Bool.or_eq_true_iff.mp hb with hc | hc
    · exact hc
    · rw [hc] at h
      cases h
  · rw [subChar, if_neg hb] at h
    have : isPySpace ' ' = true := by decide
    rw [this] at h
    cases h

theorem out_charset {base : Char → Bool} (z : List Char) {c : Char}
    (h : c ∈ pyStrip (collapseWs (z.map (subChar base)))) : isOutChar base c := by
  rcases mem_collapseWs (mem_pyStrip h) with rfl | ⟨hm, hs⟩
  · exact Or.inr rfl
  · rcases List.mem_map.1 hm with ⟨c0, _, rfl⟩
    exact Or.inl (subChar_not_space hs)

theorem removeAccentsL_fix {l : List Char}
    (h : ∀ c ∈ l, decomposeChar c = [c] ∧ isCombiningMark c = false) :
    removeAccentsL l = l := by
  induction l with
  | nil => rfl
  | cons x t ih =>
    obtain ⟨hd, hm⟩ := h x (List.mem_cons_self ..)
    have ih' := ih (fun c hc => h c (List.mem_cons_of_mem _ hc))
    unfold removeAccentsL at ih' ⊢
    rw [List.flatMap_cons, hd, List.filter_append, ih']
    simp [hm]

theorem collapseWs_fix {base : Char → Bool} (hgb : goodBase base) {l : List Char}
    (hout : ∀ c ∈ l, isOutChar base c) (hnd : noDbl l = true) : collapseWs l = l := by
  induction l with
  | nil => rfl
  | cons x t ih =>
    by_cases hx : isPySpace x = true
    · have hx' : x = ' ' := outChar_not_space_eq hgb (hout x (List.mem_cons_self ..)) hx
      cases t with
      | nil => rw [collapseWs_singleton_space hx, hx']
      | cons c2 s =>
        have h2 : isPySpace c2 = false := by
          rw [noDbl_cons_cons, Bool.and_eq_true] at hnd
          rcases Bool.and_eq_false_iff.mp (Bool.not_eq_true' .. ▸ hnd.1) with hc | hc
          · rw [hx] at hc
            cases hc
          · exact hc
        rw [collapseWs_cons_of_space_nonspace hx h2,
          ih (fun c hc => hout c (List.mem_cons_of_mem _ hc)) (noDbl_tail hnd), hx']
    · rw [collapseWs_cons_not_space (by simpa using hx),
        ih (fun c hc => hout c (List.mem_cons_of_mem _ hc)) (noDbl_tail hnd)]

theorem outChar_decomp_fix {base : Char → Bool} (hgb : goodBase base) {l : List Char}
    (hout : ∀ c ∈ l, isOutChar base c) : removeAccentsL l = l :=
  removeAccentsL_fix (fun c hc =>
    ⟨decomposeChar_ascii (outChar_lt128 hgb (hout c hc)),
     isCombiningMark_ascii (outChar_lt128 hgb (hout c hc))⟩)

theorem normPipe_fix {base : Char → Bool} (hgb : goodBase base) (z : List Char) :
    let out := pyStrip (collapseWs (z.map (subChar base)))
    pyStrip out = out ∧ out.map pyLowerChar = out ∧ removeAccentsL out = out ∧
      out.map (subChar base) = out ∧ collapseWs out = out := by
  intro out
  have hchar : ∀ c ∈ out, isOutChar base c := fun c hc => out_charset z hc
  have hnd : noDbl out = true := noDbl_pyStrip (noDbl_collapseWs _)
  refine ⟨pyStrip_idem _, map_fix (fun c hc => outChar_lower hgb (hchar c hc)),
    outChar_decomp_fix hgb hchar, map_fix (fun c hc => outChar_sub (hchar c hc)),
    collapseWs_fix hgb hchar hnd⟩

theorem mk_nil_eq_empty : String.mk ([] : List Char) = "" := rfl

theorem normalize_string_idem (s : String) :
    normalize_string (normalize_string s) = normalize_string s := by
  by_cases hs : s.data = []
  · have h0 : normalize_string s = "" := by rw [normalize_string, if_pos hs]
    rw [h0]
    rfl
  · have h1 : normalize_string s = String.mk (pyStrip (collapseWs
        ((removeAccentsL ((pyStrip s.data).map pyLowerChar)).map (subChar keepNS)))) := by
      rw [normalize_string, if_neg hs]
    obtain ⟨f1, f2, f3, f4, f5⟩ :=
      normPipe_fix goodBase_keepNS (removeAccentsL ((pyStrip s.data).map pyLowerChar))
    set out := pyStrip (collapseWs
      ((removeAccentsL ((pyStrip s.data).map pyLowerChar)).map (subChar keepNS))) with hout
    rw [h1]
    by_cases h0 : out = []
    · rw [normalize_string, if_pos (by simpa using h0), h0]
    · rw [normalize_string, if_neg (by simpa using h0)]
      show String.mk (pyStrip (collapseWs
        ((removeAccentsL ((pyStrip out).map pyLowerChar)).map (subChar keepNS)))) = String.mk out
      rw [f1, f2, f3, f4, f5, f1]

theorem matching_normalize_idem (s : String) :
    Matching.normalize (Matching.normalize s) = Matching.normalize s := by
  by_cases hs : s.data = []
  · have h0 : Matching.normalize s = "" := by rw [Matching.normalize, if_pos hs]
    rw [h0]
    rfl
  · have h1 : Matching.normalize s = String.mk (pyStrip (collapseWs
        ((removeAccentsL (s.data.map pyLowerChar)).map (subChar keepMN)))) := by
      rw [Matching.normalize, if_neg hs]
    obtain ⟨f1, f2, f3, f4, f5⟩ :=
      normPipe_fix goodBase_keepMN (removeAccentsL (s.data.map pyLowerChar))
    set out := pyStrip (collapseWs
      ((removeAccentsL (s.data.map pyLowerChar)).map (subChar keepMN))) with hout
    rw [h1]
    by_cases h0 : out = []
    · rw [Matching.normalize, if_pos (by simpa using h0), h0]
    · rw [Matching.normalize, if_neg (by simpa using h0)]
      show String.mk (pyStrip (collapseWs
        ((removeAccentsL (out.map pyLowerChar)).map (subChar keepMN)))) = String.mk out
      rw [f2, f3, f4, f5, f1]

theorem syn_canonical : ∀ p ∈ SYNONYMS_MAP,
    normalize_string p.2 = p.2 ∧ dget SYNONYMS_MAP p.2 = some p.2 ∧ p.2 ≠ "" := by
  decide

theorem normalize_item_name_idem (s : String) :
    normalize_item_name (normalize_item_name s) = normalize_item_name s := by
  set b := normalize_string s with hb
  by_cases hb0 : b = ""
  · have h1 : normalize_item_name s = "" := by
      simp only [normalize_item_name]
      rw [← hb, if_pos hb0]
    rw [h1]
    rfl
  · have hidem : normalize_string b = b := by
      rw [hb]
      exact normalize_string_idem s
    cases hlk : dget SYNONYMS_MAP b with
    | none =>
      have h1 : normalize_item_name s = b := by
        simp only [normalize_item_name]
        rw [← hb, if_neg hb0, hlk]
      rw [h1]
      simp only [normalize_item_name]
      rw [hidem, if_neg hb0, hlk]
    | some c =>
      have h1 : normalize_item_name s = c := by
        simp only [normalize_item_name]
        rw [← hb, if_neg hb0, hlk]
      obtain ⟨hcn, hcl, hc0⟩ := syn_canonical _ (dget_mem hlk)
      rw [h1]
      simp only [normalize_item_name]
      rw [hcn, if_neg hc0, hcl]

/-- Claim C8: text normalization is idempotent — for every string x,
`normalize_item_name (normalize_item_name x) = normalize_item_name x` (including the
final synonym-table step, which maps by exact full-string match), and likewise for the
matching engine's `normalize`. -/
theorem C8_normalize_idempotent :
    (∀ s : String, normalize_item_name (normalize_item_name s) = normalize_item_name s) ∧
    (∀ s : String, Matching.normalize (Matching.normalize s) = Matching.normalize s) :=
  ⟨normalize_item_name_idem, matching_normalize_idem⟩

/-- Claim C9 (amended): `normalize_string` is total with empty input giving the empty
string, its output contains only characters from `[a-z0-9% ]`, the percent sign is
preserved and other punctuation such as `+` becomes a space.  (The matching engine's
`normalize` differs, see the counterexample.) -/
theorem C9_normalize_string_contract :
    (∀ (s : String), ∀ c ∈ (normalize_string s).data, isOutChar keepNS c) ∧
    normalize_string "" = "" ∧
    normalize_string "a+b" = "a b" ∧
    normalize_string " 50% OFF!! " = "50% off" := by
  refine ⟨?_, rfl, by decide, by decide⟩
  intro s c hc
  by_cases hs : s.data = []
  · rw [normalize_string, if_pos hs] at hc
    simp at hc
  · rw [normalize_string, if_neg hs] at hc
    exact out_charset _ hc

/-- Witness for C9: the charset bound applied at a concrete input. -/
theorem C9_normalize_string_contract_witness : isOutChar keepNS 'a' :=
  C9_normalize_string_contract.1 "a" 'a' (by decide)

/-- Counterexample for C9 as frozen: the other cited normalizer,
`Matching.normalize`, keeps `+` (a character outside `[a-z0-9% ]`) in its output and
replaces `%` with a space rather than preserving it. -/
theorem C9_counterexample :
    Matching.normalize "50% off+" = "50 off+" ∧
    '+' ∈ (Matching.normalize "50% off+").data ∧
    ¬ isOutChar keepNS '+' ∧
    strContains (Matching.normalize "50% off+") "%" = false :=
  ⟨by decide, by decide, by simp only [isOutChar]; decide, by decide⟩

/-! ## Sorting lemmas -/

theorem sortBy_perm (le : α → α → Bool) (l : List α) : (sortBy le l).Perm l :=
  List.perm_insertionSort _ l

theorem mem_sortBy {le : α → α → Bool} {l : List α} {x : α} :
    x ∈ sortBy le l ↔ x ∈ l :=
  (sortBy_perm le l).mem_iff

theorem sortBy_sorted (le : α → α → Bool) (htot : ∀ a b, le a b = true ∨ le b a = true)
    (htrans : ∀ a b c, le a b = true → le b c = true → le a c = true) (l : List α) :
    (sortBy le l).Pairwise (fun a b => le a b = true) := by
  haveI : IsTotal α (fun a b => le a b = true) := ⟨htot⟩
  haveI : IsTrans α (fun a b => le a b = true) := ⟨fun a b c => htrans a b c⟩
  exact List.sorted_insertionSort _ l

theorem sortBy_head_le (le : α → α → Bool) (htot : ∀ a b, le a b = true ∨ le b a = true)
    (htrans : ∀ a b c, le a b = true → le b c = true → le a c = true)
    {l : List α} {x : α} {rest : List α} (h : sortBy le l = x :: rest) :
    ∀ y ∈ l, le x y = true := by
  intro y hy
  have hmem : y ∈ x :: rest := h ▸ mem_sortBy.2 hy
  rcases List.mem_cons.1 hmem with rfl | hr
  · rcases htot y y with h | h <;> exact h
  · have hp := sortBy_sorted le htot htrans l
    rw [h, List.pairwise_cons] at hp
    exact hp.1 y hr

/-! ## Key relations: totality and transitivity -/

theorem priceLe_total (p q : Option Rat) : priceLe p q = true ∨ priceLe q p = true := by
  cases p <;> cases q <;> simp [priceLe] <;> exact le_total _ _

theorem priceLe_trans (p q r : Option Rat) (h1 : priceLe p q = true)
    (h2 : priceLe q r = true) : priceLe p r = true := by
  cases p <;> cases q <;> cases r <;> simp_all [priceLe]
  exact le_trans h1 h2

theorem scoreKeyLe_iff (x y : Rat × AnnOffer) :
    scoreKeyLe x y = true ↔
      (y.1 < x.1 ∨ (x.1 = y.1 ∧ priceLe x.2.1.price y.2.1.price = true)) := by
  unfold scoreKeyLe
  by_cases h1 : y.1 < x.1
  · simp [h1]
  · by_cases h2 : x.1 = y.1
    · simp [h1, h2]
    · simp [h1, h2]

theorem scoreKeyLe_total (x y : Rat × AnnOffer) :
    scoreKeyLe x y = true ∨ scoreKeyLe y x = true := by
  rcases lt_trichotomy x.1 y.1 with h | h | h
  · right
    exact (scoreKeyLe_iff y x).2 (Or.inl h)
  · rcases priceLe_total x.2.1.price y.2.1.price with hp | hp
    · left
      exact (scoreKeyLe_iff x y).2 (Or.inr ⟨h, hp⟩)
    · right
      exact (scoreKeyLe_iff y x).2 (Or.inr ⟨h.symm, hp⟩)
  · left
    exact (scoreKeyLe_iff x y).2 (Or.inl h)

theorem scoreKeyLe_trans (x y z : Rat × AnnOffer) (h1 : scoreKeyLe x y = true)
    (h2 : scoreKeyLe y z = true) : scoreKeyLe x z = true := by
  rcases (scoreKeyLe_iff x y).1 h1 with ha | ⟨ha, hpa⟩ <;>
    rcases (scoreKeyLe_iff y z).1 h2 with hb | ⟨hb, hpb⟩
  · exact (scoreKeyLe_iff x z).2 (Or.inl (lt_trans hb ha))
  · exact (scoreKeyLe_iff x z).2 (Or.inl (hb ▸ ha))
  · exact (scoreKeyLe_iff x z).2 (Or.inl (ha ▸ hb))
  · exact (scoreKeyLe_iff x z).2
      (Or.inr ⟨ha.trans hb, priceLe_trans _ _ _ hpa hpb⟩)

theorem scoreKeyLe_score_le {x y : Rat × AnnOffer} (h : scoreKeyLe x y = true) :
    y.1 ≤ x.1 := by
  rcases (scoreKeyLe_iff x y).1 h with h | ⟨h, _⟩
  · exact le_of_lt h
  · exact le_of_eq h.symm

/-! ## Canonical scorer: structure lemmas -/

theorem survivors_pass {rules : List (String × CatRule)} {spec : ProductSpec}
    {offers : List POffer} {o : AnnOffer} (h : o ∈ survivorsOf rules spec offers) :
    hard_filters_fail rules spec o.1 = false := by
  have := (List.mem_filter.1 h).2
  simpa using this

theorem score_offer_pass {rules : List (String × CatRule)} {spec : ProductSpec}
    {o : POffer} (pr : Rat) (h : hard_filters_fail rules spec o = false) :
    ∃ s, score_offer rules spec o pr = some s := by
  rw [score_offer, if_neg (by simp [h])]
  exact ⟨_, rfl⟩

theorem filterMap_scored (rules : List (String × CatRule)) (spec : ProductSpec)
    (filtered : List AnnOffer) (l : List AnnOffer)
    (hall : ∀ o ∈ l, hard_filters_fail rules spec o.1 = false) :
    l.filterMap (fun o =>
        (score_offer rules spec o.1 (prScore filtered o)).map (fun s => (s, o)))
      = l.map (fun o => (annScore rules spec filtered o, o)) := by
  induction l with
  | nil => rfl
  | cons x t ih =>
    obtain ⟨s, hs⟩ := score_offer_pass (prScore filtered x)
      (hall x (List.mem_cons_self ..))
    have hann : annScore rules spec filtered x = s := by
      rw [annScore, hs]
      rfl
    rw [List.filterMap_cons, hs]
    simp only [Option.map_some']
    rw [List.map_cons, hann, ih (fun o ho => hall o (List.mem_cons_of_mem _ ho))]

theorem mem_scored_form {rules : List (String × CatRule)} {spec : ProductSpec}
    {filtered l : List AnnOffer} {p : Rat × AnnOffer}
    (h : p ∈ l.map (fun o => (annScore rules spec filtered o, o))) :
    p = (annScore rules spec filtered p.2, p.2) := by
  rcases List.mem_map.1 h with ⟨o, _, rfl⟩
  rfl

/-- Claim C3 (amended, canonical `filter_and_pick_best` of scorer.py): if no offer
survives the hard filter the result is `(none, [])`; otherwise the pipeline returns
some full ranking `b :: rest` — a permutation of the survivors, sorted descending by
the computed score with ties broken by ascending price and unpriced offers last —
whose head `b` is the returned best offer (a top-scoring survivor) and whose first
`top_k` entries are the ranked list.  (The second implementation,
`Matching.filter_and_pick_best`, orders by price first: see the counterexample.) -/
theorem C3_ranking_contract (rules : List (String × CatRule)) (spec : ProductSpec)
    (offers : List POffer) (top_k : Nat) :
    (survivorsOf rules spec offers = [] →
      filter_and_pick_best rules spec offers top_k = (none, [])) ∧
    (survivorsOf rules spec offers ≠ [] → ∃ b rest,
      filter_and_pick_best rules spec offers top_k = (some b, (b :: rest).take top_k) ∧
      (b :: rest).Perm (survivorsOf rules spec offers) ∧
      List.Pairwise (rankLeAt rules spec (survivorsOf rules spec offers)) (b :: rest) ∧
      ∀ o ∈ survivorsOf rules spec offers,
        annScore rules spec (survivorsOf rules spec offers) o ≤
          annScore rules spec (survivorsOf rules spec offers) b) := by
  constructor
  · intro hempty
    simp only [filter_and_pick_best]
    by_cases ho : offers.isEmpty
    · rw [if_pos ho]
    · rw [if_neg ho, if_pos (by rw [hempty]; rfl)]
  · intro hne
    have ho : offers.isEmpty = false := by
      cases offers with
      | nil => exact absurd rfl hne
      | cons _ _ => rfl
    have hall : ∀ o ∈ survivorsOf rules spec offers,
        hard_filters_fail rules spec o.1 = false := fun o ho => survivors_pass ho
    have hscored := filterMap_scored rules spec (survivorsOf rules spec offers)
      (survivorsOf rules spec offers) hall
    set surv := survivorsOf rules spec offers with hsurv
    set scored := surv.map (fun o => (annScore rules spec surv o, o)) with hscdef
    have hscne : scored.isEmpty = false := by
      cases hs : surv with
      | nil => exact absurd hs hne
      | cons a t => rw [hscdef, hs]; rfl
    obtain ⟨p, ps, hsort⟩ : ∃ p ps, sortBy scoreKeyLe scored = p :: ps := by
      cases hs : sortBy scoreKeyLe scored with
      | nil =>
        have := (sortBy_perm scoreKeyLe scored).length_eq
        rw [hs] at this
        cases hsc : scored with
        | nil => rw [hsc] at hscne; cases hscne
        | cons a t => rw [hsc] at this; cases this
      | cons p ps => exact ⟨p, ps, rfl⟩
    have hperm : (p :: ps).Perm scored := hsort ▸ sortBy_perm scoreKeyLe scored
    have hpairs : (p :: ps).Pairwise (fun a b => scoreKeyLe a b = true) :=
      hsort ▸ sortBy_sorted scoreKeyLe scoreKeyLe_total scoreKeyLe_trans scored
    have hform : ∀ q ∈ p :: ps, q = (annScore rules spec surv q.2, q.2) :=
      fun q hq => mem_scored_form (hperm.mem_iff.1 hq)
    have hmapsnd : scored.map (·.2) = surv := by
      rw [hscdef, List.map_map]
      exact List.map_id _
    refine ⟨p.2, ps.map (·.2), ?_, ?_, ?_, ?_⟩
    · simp only [filter_and_pick_best]
      rw [if_neg (by simp [ho]), ← hsurv, if_neg (by simp [hne]), hscored,
        if_neg (by simp [hscne]), hsort]
      rfl
    · have := hperm.map (·.2)
      rw [hmapsnd] at this
      simpa using this
    · have himp : (p :: ps).Pairwise
          (fun a b => rankLeAt rules spec surv a.2 b.2) := by
        refine List.Pairwise.imp_of_mem ?_ hpairs
        intro a b ha hb hle
        have hfa := hform a ha
        have hfb := hform b hb
        rw [rankLeAt, ← hfa, ← hfb]
        exact hle
      have := (List.pairwise_map (f := fun q : Rat × AnnOffer => q.2)).2 himp
      simpa using this
    · intro o hoo
      have hmem : (annScore rules spec surv o, o) ∈ scored :=
        List.mem_map.2 ⟨o, hoo, rfl⟩
      have hle := sortBy_head_le scoreKeyLe scoreKeyLe_total scoreKeyLe_trans hsort
        _ hmem
      have hp2 := hform p (List.mem_cons_self ..)
      have := scoreKeyLe_score_le hle
      calc annScore rules spec surv o = ((annScore rules spec surv o, o) : Rat × AnnOffer).1 := rfl
        _ ≤ p.1 := this
        _ = annScore rules spec surv p.2 := by rw [hp2]

theorem mem_ranked_survivor {rules : List (String × CatRule)} {spec : ProductSpec}
    {offers : List POffer} {top_k : Nat} {a : AnnOffer}
    (h : a ∈ (filter_and_pick_best rules spec offers top_k).2) :
    a ∈ survivorsOf rules spec offers := by
  by_cases ho : offers.isEmpty
  · rw [filter_and_pick_best, if_pos ho] at h
    cases h
  · simp only [filter_and_pick_best, if_neg ho] at h
    by_cases hf : (survivorsOf rules spec offers).isEmpty
    · rw [if_pos hf] at h
      cases h
    · rw [if_neg hf] at h
      set scored := (survivorsOf rules spec offers).filterMap (fun o =>
        (score_offer rules spec o.1 (prScore (survivorsOf rules spec offers) o)).map
          (fun s => (s, o))) with hsc
      by_cases hse : scored.isEmpty
      · rw [if_pos hse] at h
        cases h
      · rw [if_neg hse] at h
        have hmem : a ∈ (sortBy scoreKeyLe scored).map (fun t => t.2) := by
          cases hr : (sortBy scoreKeyLe scored).map (fun t => t.2) with
          | nil => rw [hr] at h; cases h
          | cons b rest =>
            simp only [hr] at h ⊢
            exact List.mem_of_mem_take (by simpa using h)
        rcases List.mem_map.1 hmem with ⟨t, ht, rfl⟩
        have hts : t ∈ scored := mem_sortBy.1 ht
        rcases List.mem_filterMap.1 (hsc ▸ hts) with ⟨o, hof, hmap⟩
        rcases Option.map_eq_some'.1 hmap with ⟨s, _, hso⟩
        rw [← hso]
        exact hof

/-- Claim C4 (amended, canonical scorer.py pipeline): hard filtering is
substring-based — an offer that appears in `ranked` has, for every category the spec
matched, no nonempty forbidden term of that category occurring as a substring of its
normalized blob (so any offer with such a term anywhere in name, category or
description, even inside a longer word, is rejected); in particular the milk offer
"Leche con chocolate 1L" is hard-rejected and never ranked.  (The matching-engine
scorer is token-based over the name only: see the counterexample.) -/
theorem C4_hard_filter_substring :
    (∀ (rules : List (String × CatRule)) (spec : ProductSpec) (offers : List POffer)
      (top_k : Nat) (a : AnnOffer), a ∈ (filter_and_pick_best rules spec offers top_k).2 →
      ∀ cat minfo, (cat, minfo) ∈ spec.matched_rules →
      ∀ forb ∈ (rulesGet rules cat).forbidden_terms, forb ≠ "" →
        strContains (offerBlob a.1) (normalize_string forb) = false) ∧
    hard_filters_fail Matching.CATEGORY_RULES specMilkNS offChocoNS = true ∧
    filter_and_pick_best Matching.CATEGORY_RULES specMilkNS [offChocoNS] 5 = (none, []) := by
  refine ⟨?_, by decide, by decide⟩
  intro rules spec offers top_k a ha cat minfo hcat forb hforb hne
  have hpass : hard_filters_fail rules spec a.1 = false :=
    survivors_pass (mem_ranked_survivor ha)
  rw [hard_filters_fail] at hpass
  have h1 := Bool.eq_false_iff.2 ((List.any_eq_false.1 hpass) (cat, minfo) hcat)
  have h2 := (List.any_eq_false.1 h1) forb hforb
  rw [if_neg hne] at h2
  exact Bool.eq_false_iff.2 h2

section ConcreteEvaluation

attribute [local semireducible] Rat.add Rat.mul Rat.sub Rat.inv

/-- Witness for C3: at a concrete input whose only offer is hard-filtered, the
pipeline returns `(none, [])`. -/
theorem C3_ranking_contract_witness :
    filter_and_pick_best Matching.CATEGORY_RULES specMilkNS [offChocoNS] 5 = (none, []) :=
  (C3_ranking_contract Matching.CATEGORY_RULES specMilkNS [offChocoNS] 5).1 (by decide)

/-- Counterexample for C3 as frozen: the other cited ranking implementation,
`Matching.filter_and_pick_best`, sorts by price first — with two surviving offers
scoring 3/2 and 7/5, it returns the cheaper, lower-scoring one as best and ranks it
first, so the best offer is not the top-scoring one and the ranked list is not
score-descending. -/
theorem C3_counterexample :
    Matching.score_offer specMilkM offLecheM = 3/2 ∧
    Matching.score_offer specMilkM offBarataM = 7/5 ∧
    (7/5 : Rat) < 3/2 ∧
    Matching.filter_and_pick_best specMilkM [offLecheM, offBarataM] =
      (some offBarataM, [offBarataM, offLecheM]) :=
  ⟨by decide, by decide, by decide, by decide⟩

/-- Witness for C4: a surviving ranked offer has no forbidden substring in its blob. -/
theorem C4_hard_filter_substring_witness :
    strContains (offerBlob offLecheNS) (normalize_string "chocolate") = false :=
  C4_hard_filter_substring.1 Matching.CATEGORY_RULES specMilkNS [offLecheNS] 5
    (offLecheNS, 0) (by decide) "milk" ⟨["leche"], [], []⟩ (by decide) "chocolate"
    (by decide) (by decide)

/-- Counterexample for C4 as frozen: in the matching-engine scorer the forbidden term
"chocolate" occurs as a substring (inside the longer word "chocolateada") of the
offer's normalized name, yet the offer survives and appears in the ranked list,
because that implementation matches forbidden terms token-wise. -/
theorem C4_counterexample :
    strContains (Matching.normalize offChocoM.name) "chocolate" = true ∧
    "chocolate" ∈ (Matching.get_category_rules specMilkM.category_code).forbidden_terms ∧
    Matching.filter_and_pick_best specMilkM [offChocoM] = (some offChocoM, [offChocoM]) :=
  ⟨by decide, by decide, by decide⟩

end ConcreteEvaluation

/-! ## Aggregator lemmas -/

theorem get_offers_go (q : String) (scrapers : List (String × Scraper))
    (acc : List Offer) :
    scrapers.foldl (fun acc p =>
        match p.2 q with
        | Except.ok offers => acc ++ offers
        | Except.error _ => acc) acc
      = acc ++ (scrapers.filterMap (fun p =>
          match p.2 q with
          | Except.ok l => some l
          | Except.error _ => none)).flatten := by
  induction scrapers generalizing acc with
  | nil => simp
  | cons p t ih =>
    cases hp : p.2 q with
    | ok l =>
      rw [List.foldl_cons, List.filterMap_cons]
      simp only [hp]
      rw [ih, List.flatten_cons, List.append_assoc]
    | error e =>
      rw [List.foldl_cons, List.filterMap_cons]
      simp only [hp]
      exact ih acc

/-- Claim C5: if one registered source's `search` raises on every call, `get_offers`
returns exactly what it returns without that source — the union of all other
sources' offers, unaffected. -/
theorem C5_aggregation_isolation (pre post : List (String × Scraper)) (name : String)
    (s : Scraper) (q : String) (e : String → String)
    (hfail : ∀ q', s q' = Except.error (e q')) :
    get_offers (pre ++ (name, s) :: post) q = get_offers (pre ++ post) q := by
  rw [get_offers, get_offers, List.foldl_append, List.foldl_append, List.foldl_cons]
  congr 1
  simp only [hfail q]

/-- Witness for C5 at a concrete two-source manager. -/
theorem C5_aggregation_isolation_witness :
    get_offers ([("mercadona", okScraper)] ++ ("boom", boomScraper) :: []) "leche"
      = get_offers ([("mercadona", okScraper)] ++ []) "leche" :=
  C5_aggregation_isolation [("mercadona", okScraper)] [] "boom" boomScraper "leche"
    (fun _ => "boom") (fun _ => rfl)

/-- Claim C6 (amended): `get_offers` catches every source exception — it returns
exactly the concatenation of the successful sources' lists — and an unregistered
store name in `get_offers_by_store` yields an empty result; but `get_offers_by_store`
calls a registered source's `search` with no handler, so that source's exception
propagates (see the counterexample). -/
theorem C6_source_boundary :
    (∀ (scrapers : List (String × Scraper)) (q : String),
      get_offers scrapers q = (scrapers.filterMap (fun p =>
        match p.2 q with
        | Except.ok l => some l
        | Except.error _ => none)).flatten) ∧
    (∀ (scrapers : List (String × Scraper)) (store q : String),
      dget scrapers (pyLowerStr store) = none →
        get_offers_by_store scrapers store q = Except.ok []) := by
  constructor
  · intro scrapers q
    rw [get_offers, get_offers_go]
    rfl
  · intro scrapers store q h
    rw [get_offers_by_store, h]

/-- Witness for C6 at a concrete unregistered store. -/
theorem C6_source_boundary_witness :
    get_offers_by_store [("boom", boomScraper)] "ghost" "q" = Except.ok [] :=
  C6_source_boundary.2 [("boom", boomScraper)] "ghost" "q" rfl

/-- Counterexample for C6 as frozen: a registered source that raises makes
`get_offers_by_store` propagate the exception instead of converting it to an empty
result. -/
theorem C6_counterexample :
    get_offers_by_store [("boom", boomScraper)] "Boom" "leche" = Except.error "boom" ∧
    (Except.error "boom" : Except String (List Offer)) ≠ Except.ok [] :=
  ⟨rfl, fun h => Except.noConfusion h⟩

/-! ## Basket comparison lemmas -/

theorem filterMap_filter_isSome (f : α → Option β) (l : List α) :
    (l.filter (fun x => (f x).isSome)).filterMap f = l.filterMap f := by
  induction l with
  | nil => rfl
  | cons x t ih =>
    cases hf : f x with
    | none =>
      rw [List.filter_cons, if_neg (by simp [hf]), List.filterMap_cons, hf, ih]
    | some b =>
      rw [List.filter_cons, if_pos (by simp [hf]), List.filterMap_cons, hf,
        List.filterMap_cons, hf, ih]

/-- Claim C7: requested store names that do not resolve against the store index are
silently dropped — the result equals the one for the request keeping only the
resolving store names — and if zero stores resolve, the function returns immediately
with every requested item unmatched and all totals zero. -/
theorem C7_unknown_stores (req : CompareRequest) (db : DB) :
    compare_basket req db = compare_basket
      ⟨req.items, req.stores.filter (fun sn =>
        (dget (storeIndex db) (pyStripStr (pyLowerStr sn))).isSome)⟩ db ∧
    (resolveStores db req.stores = [] →
      compare_basket req db = ⟨[], [], 0, req.items⟩) := by
  constructor
  · have hres : resolveStores db (req.stores.filter (fun sn =>
        (dget (storeIndex db) (pyStripStr (pyLowerStr sn))).isSome))
        = resolveStores db req.stores := by
      rw [resolveStores, resolveStores]
      exact filterMap_filter_isSome _ _
    rw [compare_basket, compare_basket, hres]
  · intro h
    rw [compare_basket, h]
    rfl

/-- Witness for C7: with only an unknown store requested, everything is unmatched. -/
theorem C7_unknown_stores_witness :
    compare_basket ⟨["Milk"], ["Ghostmart"]⟩ tieDb = ⟨[], [], 0, ["Milk"]⟩ :=
  (C7_unknown_stores ⟨["Milk"], ["Ghostmart"]⟩ tieDb).2 (by decide)

theorem tieLe_iff (totals : List (Nat × Rat)) (x y : Nat × Rat) :
    tieLe totals x y = true ↔
      ((dget totals x.1).getD 0 < (dget totals y.1).getD 0 ∨
       ((dget totals x.1).getD 0 = (dget totals y.1).getD 0 ∧ x.1 ≤ y.1)) := by
  unfold tieLe
  by_cases h1 : (dget totals x.1).getD 0 < (dget totals y.1).getD 0
  · simp [h1]
  · by_cases h2 : (dget totals x.1).getD 0 = (dget totals y.1).getD 0
    · simp [h1, h2]
    · simp [h1, h2]

theorem tieLe_total (totals : List (Nat × Rat)) (x y : Nat × Rat) :
    tieLe totals x y = true ∨ tieLe totals y x = true := by
  rcases lt_trichotomy ((dget totals x.1).getD 0) ((dget totals y.1).getD 0) with h | h | h
  · exact Or.inl ((tieLe_iff totals x y).2 (Or.inl h))
  · rcases Nat.le_total x.1 y.1 with hn | hn
    · exact Or.inl ((tieLe_iff totals x y).2 (Or.inr ⟨h, hn⟩))
    · exact Or.inr ((tieLe_iff totals y x).2 (Or.inr ⟨h.symm, hn⟩))
  · exact Or.inr ((tieLe_iff totals y x).2 (Or.inl h))

theorem tieLe_trans (totals : List (Nat × Rat)) (x y z : Nat × Rat)
    (h1 : tieLe totals x y = true) (h2 : tieLe totals y z = true) :
    tieLe totals x z = true := by
  rcases (tieLe_iff totals x y).1 h1 with ha | ⟨ha, hna⟩ <;>
    rcases (tieLe_iff totals y z).1 h2 with hb | ⟨hb, hnb⟩
  · exact (tieLe_iff totals x z).2 (Or.inl (lt_trans ha hb))
  · exact (tieLe_iff totals x z).2 (Or.inl (hb ▸ ha))
  · exact (tieLe_iff totals x z).2 (Or.inl (ha ▸ hb))
  · exact (tieLe_iff totals x z).2 (Or.inr ⟨ha.trans hb, le_trans hna hnb⟩)

theorem minSnd_le {c : Nat × Rat} {cs : List (Nat × Rat)} :
    ∀ x ∈ c :: cs, minSnd c cs ≤ x.2 := by
  have key : ∀ (cs : List (Nat × Rat)) (acc : Rat),
      (cs.foldl (fun acc x => if x.2 < acc then x.2 else acc) acc ≤ acc ∧
       ∀ x ∈ cs, cs.foldl (fun acc x => if x.2 < acc then x.2 else acc) acc ≤ x.2) := by
    intro cs
    induction cs with
    | nil => exact fun acc => ⟨le_refl _, by simp⟩
    | cons y t ih =>
      intro acc
      rw [List.foldl_cons]
      have hacc : (if y.2 < acc then y.2 else acc) ≤ acc := by
        by_cases hy : y.2 < acc
        · rw [if_pos hy]; exact le_of_lt hy
        · rw [if_neg hy]
      have hy2 : (if y.2 < acc then y.2 else acc) ≤ y.2 := by
        by_cases hy : y.2 < acc
        · rw [if_pos hy]
        · rw [if_neg hy]; exact le_of_not_lt hy
      obtain ⟨ih1, ih2⟩ := ih (if y.2 < acc then y.2 else acc)
      refine ⟨le_trans ih1 hacc, ?_⟩
      intro x hx
      rcases List.mem_cons.1 hx with rfl | hx
      · exact le_trans ih1 hy2
      · exact ih2 x hx
  intro x hx
  rcases List.mem_cons.1 hx with rfl | hx
  · exact le_trans (key cs x.2).1 (le_refl _)
  · exact (key cs c.2).2 x hx

theorem pickStore_sound (totals : List (Nat × Rat)) (cands : List (Nat × Rat))
    (sel : Nat × Rat) (h : pickStore totals cands = some sel) :
    sel ∈ cands ∧ (∀ x ∈ cands, sel.2 ≤ x.2) ∧
      (∀ x ∈ cands, x.2 = sel.2 → tieLe totals sel x = true) := by
  cases cands with
  | nil => cases h
  | cons c cs =>
    simp only [pickStore] at h
    set mp := minSnd c cs with hmp
    set mps := (c :: cs).filter (fun x => x.2 = mp) with hmps
    have hsub : ∀ x ∈ mps, x ∈ (c :: cs) ∧ x.2 = mp := by
      intro x hx
      have := List.mem_filter.1 hx
      exact ⟨this.1, by simpa using this.2⟩
    by_cases hlen : 1 < mps.length
    · rw [if_pos hlen] at h
      obtain ⟨rest, hsort⟩ : ∃ rest, sortBy (tieLe totals) mps = sel :: rest := by
        cases hs : sortBy (tieLe totals) mps with
        | nil => rw [hs] at h; cases h
        | cons a r =>
          rw [hs] at h
          simp only [List.head?] at h
          cases h
          exact ⟨r, rfl⟩
      have hselmps : sel ∈ mps := mem_sortBy.1 (hsort ▸ List.mem_cons_self ..)
      obtain ⟨hmem, hval⟩ := hsub sel hselmps
      refine ⟨hmem, ?_, ?_⟩
      · intro x hx
        rw [hval]
        exact minSnd_le x hx
      · intro x hx hxv
        have hxmps : x ∈ mps := by
          rw [hmps]
          exact List.mem_filter.2 ⟨hx, by simp [hxv, hval]⟩
        exact sortBy_head_le (tieLe totals) (tieLe_total totals)
          (tieLe_trans totals) hsort x hxmps
    · rw [if_neg hlen] at h
      have hselmps : sel ∈ mps := by
        cases hm : mps with
        | nil => rw [hm] at h; cases h
        | cons a r =>
          rw [hm] at h
          simp only [List.head?] at h
          cases h
          exact List.mem_cons_self ..
      obtain ⟨hmem, hval⟩ := hsub sel hselmps
      refine ⟨hmem, ?_, ?_⟩
      · intro x hx
        rw [hval]
        exact minSnd_le x hx
      · intro x hx hxv
        have hxmps : x ∈ mps := by
          rw [hmps]
          exact List.mem_filter.2 ⟨hx, by simp [hxv, hval]⟩
        have hxsel : x = sel := by
          cases hm : mps with
          | nil => rw [hm] at hselmps; cases hselmps
          | cons a r =>
            cases r with
            | nil =>
              rw [hm] at hxmps hselmps
              simp at hxmps hselmps
              rw [hxmps, hselmps]
            | cons b r2 =>
              rw [hm] at hlen
              exact absurd (by simp) hlen
        rcases tieLe_total totals sel x with ht | ht
        · exact ht
        · rw [hxsel]
          rcases tieLe_total totals sel sel with ht | ht <;> exact ht

section ConcreteCompare

attribute [local semireducible] Rat.add Rat.mul Rat.sub Rat.inv

/-- Claim C2: the greedy pass processes matched items in request order; each item with
priced candidates goes to a store of minimal price, ties broken by the lowest running
subtotal so far, then the lowest store id (`tieLe` is exactly that lexicographic
order), and the price is added to that store's subtotal.  In the scenario —
items ["Milk", "Butter"], Milk 2.49 at Target only, Butter 4.00 at both — Milk goes
to Target and Butter to Walmart, with per-store totals Walmart 4.00, Target 2.49. -/
theorem C2_greedy_tiebreak :
    (∀ (totals : List (Nat × Rat)) (cands : List (Nat × Rat)) (sel : Nat × Rat),
      pickStore totals cands = some sel →
      sel ∈ cands ∧ (∀ x ∈ cands, sel.2 ≤ x.2) ∧
      (∀ x ∈ cands, x.2 = sel.2 → tieLe totals sel x = true)) ∧
    compare_basket tieReq tieDb =
      ⟨[⟨"Milk", "Target", 249/100⟩, ⟨"Butter", "Walmart", 4⟩],
       [⟨"Walmart", 4⟩, ⟨"Target", 249/100⟩], 4, []⟩ :=
  ⟨pickStore_sound, by decide⟩

/-- Witness for C2: the selection lemma applied at a concrete candidate list with a
price tie broken by store id. -/
theorem C2_greedy_tiebreak_witness :
    ((2 : Nat), (4 : Rat)) ∈ [((1 : Nat), (5 : Rat)), (2, 4)] ∧
    (∀ x ∈ [((1 : Nat), (5 : Rat)), (2, 4)], ((2 : Nat), (4 : Rat)).2 ≤ x.2) ∧
    (∀ x ∈ [((1 : Nat), (5 : Rat)), (2, 4)], x.2 = ((2 : Nat), (4 : Rat)).2 →
      tieLe [] ((2 : Nat), (4 : Rat)) x = true) :=
  C2_greedy_tiebreak.1 [] [(1, 5), (2, 4)] (2, 4) (by decide)

end ConcreteCompare

theorem buildDict_snd [DecidableEq κ] (f : κ → β) (seen : List κ) (l : List κ) :
    (buildDictAux f seen l).map (·.2) = (dedupAux seen l).map f := by
  induction l generalizing seen with
  | nil => rfl
  | cons k t ih =>
    by_cases hk : k ∈ seen
    · rw [buildDictAux, dedupAux, if_pos hk, if_pos hk, ih]
    · rw [buildDictAux, dedupAux, if_neg hk, if_neg hk, List.map_cons, List.map_cons, ih]

theorem buildDict_fst [DecidableEq κ] (f : κ → β) (seen : List κ) (l : List κ) :
    (buildDictAux f seen l).map (·.1) = dedupAux seen l := by
  induction l generalizing seen with
  | nil => rfl
  | cons k t ih =>
    by_cases hk : k ∈ seen
    · rw [buildDictAux, dedupAux, if_pos hk, if_pos hk, ih]
    · rw [buildDictAux, dedupAux, if_neg hk, if_neg hk, List.map_cons, ih]

theorem buildDict_mem_val [DecidableEq κ] {f : κ → β} {seen : List κ} {l : List κ}
    {p : κ × β} (h : p ∈ buildDictAux f seen l) : p.2 = f p.1 := by
  induction l generalizing seen with
  | nil => cases h
  | cons k t ih =>
    rw [buildDictAux] at h
    by_cases hk : k ∈ seen
    · rw [if_pos hk] at h
      exact ih h
    · rw [if_neg hk] at h
      rcases List.mem_cons.1 h with rfl | h
      · rfl
      · exact ih h

theorem completeTotal_sum (db : DB) (items : List String) (pm : List ((Nat × Nat) × Rat))
    (sid : Nat) :
    completeTotal db items pm sid = (items.filterMap (fun it =>
      (itemProduct db it).bind (fun p => dget pm (p.id, sid)))).sum := by
  have key : ∀ (l : List String) (acc : Rat),
      l.foldl (fun acc item => match itemProduct db item with
        | none => acc
        | some p => match dget pm (p.id, sid) with
          | some pr => acc + pr
          | none => acc) acc
      = acc + (l.filterMap (fun it =>
          (itemProduct db it).bind (fun p => dget pm (p.id, sid)))).sum := by
    intro l
    induction l with
    | nil => intro acc; simp
    | cons x t ih =>
      intro acc
      rw [List.foldl_cons, List.filterMap_cons]
      cases hx : itemProduct db x with
      | none =>
        simp only [hx, Option.none_bind]
        exact ih acc
      | some p =>
        cases hp : dget pm (p.id, sid) with
        | none =>
          simp only [hx, hp, Option.some_bind]
          exact ih acc
        | some pr =>
          simp only [hx, hp, Option.some_bind]
          rw [ih, List.sum_cons, ← add_assoc]
  rw [completeTotal, key, zero_add]

/-- Claim C1 (amended): `overallTotal` is computed from the price matrix alone,
independently of the greedy per-item assignment — it equals the minimum positive
complete-basket total over the distinct resolved stores (each total summing the price
of every matched item occurrence the store prices), and it is 0 exactly when no store
has a positive complete-basket total.  (The frozen claim's "0 if no store prices
every matched item" clause is refuted by the counterexample.) -/
theorem C1_overallTotal_from_matrix (req : CompareRequest) (db : DB) :
    (compare_basket req db).overallTotal = overallTotalSpec req db := by
  rw [compare_basket, overallTotalSpec]
  simp only [requestPricesMap]
  by_cases h : (resolveStores db req.stores).isEmpty = true
  · rw [compareBasketCore, if_pos h]
    have h0 : resolveStores db req.stores = [] := by
      cases hr : resolveStores db req.stores with
      | nil => rfl
      | cons a t => rw [hr] at h; cases h
    rw [h0]
    rfl
  · have h' : (resolveStores db req.stores).isEmpty = false := by
      cases hv : (resolveStores db req.stores).isEmpty with
      | false => rfl
      | true => exact absurd hv h
    simp only [compareBasketCore, h', Bool.false_eq_true, if_false]
    obtain ⟨s0, srest, hs⟩ : ∃ s0 srest, resolveStores db req.stores = s0 :: srest := by
      cases hr : resolveStores db req.stores with
      | nil => rw [hr] at h'; cases h'
      | cons a t => exact ⟨a, t, rfl⟩
    have hne : (buildDictAux (completeTotal db req.items
        (pricesMap db ((pydedup req.items).filterMap (fun it =>
          (itemProduct db it).map (·.id)))
          ((resolveStores db req.stores).map (·.id)))) []
        ((resolveStores db req.stores).map (·.id))).isEmpty = false := by
      rw [hs, List.map_cons, buildDictAux, if_neg (List.not_mem_nil _)]
      rfl
    rw [hne, if_neg Bool.false_ne_true, buildDict_snd]
    congr 1
    refine List.map_congr_left ?_
    intro sid _
    exact completeTotal_sum db req.items _ sid

section ConcreteOverall

attribute [local semireducible] Rat.add Rat.mul Rat.sub Rat.inv

/-- Counterexample for C1 as frozen: over `splitDb` no resolved store prices every
matched item (each of the two matched items is priced at exactly one, different,
store), so the claim requires `overallTotal = 0`; the code instead returns 2, the
minimum positive partial complete-basket total. -/
theorem C1_counterexample :
    ¬ claimC1 splitReq splitDb ∧
    (pydedup ((resolveStores splitDb splitReq.stores).map (·.id))).any
      (storePricesAllMatched splitDb splitReq.items
        (requestPricesMap splitReq splitDb)) = false ∧
    (compare_basket splitReq splitDb).overallTotal = 2 := by
  refine ⟨?_, by decide, by decide⟩
  simp only [claimC1]
  decide

end ConcreteOverall

theorem mem_dedupAux [DecidableEq α] {l seen : List α} {x : α} :
    x ∈ dedupAux seen l ↔ (x ∈ l ∧ x ∉ seen) := by
  induction l generalizing seen with
  | nil => simp [dedupAux]
  | cons k t ih =>
    rw [dedupAux]
    by_cases hk : k ∈ seen
    · rw [if_pos hk, ih]
      constructor
      · rintro ⟨hx, hs⟩
        exact ⟨List.mem_cons_of_mem _ hx, hs⟩
      · rintro ⟨hx, hs⟩
        rcases List.mem_cons.1 hx with rfl | hx
        · exact absurd hk hs
        · exact ⟨hx, hs⟩
    · rw [if_neg hk]
      constructor
      · intro hx
        rcases List.mem_cons.1 hx with rfl | hx
        · exact ⟨List.mem_cons_self .., hk⟩
        · obtain ⟨h1, h2⟩ := ih.1 hx
          refine ⟨List.mem_cons_of_mem _ h1, fun hs => h2 (List.mem_cons_of_mem _ hs)⟩
      · rintro ⟨hx, hs⟩
        rcases List.mem_cons.1 hx with rfl | hx
        · exact List.mem_cons_self ..
        · by_cases hxk : x = k
          · subst hxk
            exact List.mem_cons_self ..
          · exact List.mem_cons_of_mem _ (ih.2 ⟨hx, by simp [hxk, hs]⟩)

theorem mem_dset [DecidableEq κ] {m : List (κ × β)} {k : κ} {v : β} {p : κ × β}
    (h : p ∈ dset m k v) : p = (k, v) ∨ p ∈ m := by
  induction m with
  | nil =>
    rw [dset] at h
    simp at h
    exact Or.inl h
  | cons q t ih =>
    obtain ⟨k', v'⟩ := q
    rw [dset] at h
    by_cases hk : k' = k
    · rw [if_pos hk] at h
      rcases List.mem_cons.1 h with rfl | h
      · exact Or.inl rfl
      · exact Or.inr (List.mem_cons_of_mem _ h)
    · rw [if_neg hk] at h
      rcases List.mem_cons.1 h with rfl | h
      · exact Or.inr (List.mem_cons_self ..)
      · rcases ih h with h | h
        · exact Or.inl h
        · exact Or.inr (List.mem_cons_of_mem _ h)

theorem dset_keys_of_mem [DecidableEq κ] {m : List (κ × β)} {k : κ}
    (h : k ∈ m.map (·.1)) (v : β) : (dset m k v).map (·.1) = m.map (·.1) := by
  induction m with
  | nil => simp at h
  | cons q t ih =>
    obtain ⟨k', v'⟩ := q
    rw [dset]
    by_cases hk : k' = k
    · rw [if_pos hk]
      simp [hk]
    · rw [if_neg hk]
      simp only [List.map_cons]
      congr 1
      apply ih
      simp only [List.map_cons, List.mem_cons] at h
      rcases h with h | h
      · exact absurd h.symm hk
      · exact h

theorem candidates_fst {pm : List ((Nat × Nat) × Rat)} {store_ids : List Nat}
    {pid : Nat} {sel : Nat × Rat}
    (h : sel ∈ store_ids.filterMap (fun sid =>
      (dget pm (pid, sid)).map (fun q => (sid, q)))) :
    sel.1 ∈ store_ids := by
  rcases List.mem_filterMap.1 h with ⟨sid, hsid, hmap⟩
  rcases Option.map_eq_some'.1 hmap with ⟨q, _, hq⟩
  rw [← hq]
  exact hsid

theorem loopStep_keys (db : DB) (pm : List ((Nat × Nat) × Rat)) (store_ids : List Nat)
    (storeName : List (Nat × String)) (st : LoopState) (item : String)
    (hsub : ∀ sid ∈ store_ids, sid ∈ st.totals.map (·.1)) :
    (loopStep db pm store_ids storeName st item).totals.map (·.1)
      = st.totals.map (·.1) := by
  rw [loopStep]
  cases hx : itemProduct db item with
  | none => rfl
  | some product =>
    dsimp only
    cases hps : pickStore st.totals (store_ids.filterMap (fun sid =>
        (dget pm (product.id, sid)).map (fun q => (sid, q)))) with
    | none =>
      dsimp only
      by_cases him : item ∈ st.unmatched
      · rw [if_pos him]
      · rw [if_neg him]
    | some sel =>
      dsimp only
      exact dset_keys_of_mem
        (hsub sel.1 (candidates_fst (pickStore_sound _ _ _ hps).1)) _

theorem loopFold_keys (db : DB) (pm : List ((Nat × Nat) × Rat)) (store_ids : List Nat)
    (storeName : List (Nat × String)) (items : List String) (st : LoopState)
    (hsub : ∀ sid ∈ store_ids, sid ∈ st.totals.map (·.1)) :
    (items.foldl (loopStep db pm store_ids storeName) st).totals.map (·.1)
      = st.totals.map (·.1) := by
  induction items generalizing st with
  | nil => rfl
  | cons item t ih =>
    rw [List.foldl_cons]
    have hstep := loopStep_keys db pm store_ids storeName st item hsub
    rw [ih _ (fun sid hs => hstep ▸ hsub sid hs), hstep]

theorem loopStep_zero (db : DB) (pm : List ((Nat × Nat) × Rat)) (store_ids : List Nat)
    (storeName : List (Nat × String)) (st : LoopState) (item : String)
    (hinv : ∀ p ∈ st.totals, p.2 ≠ 0 →
      (dget storeName p.1).getD "" ∈ st.citems.map (·.store)) :
    ∀ p ∈ (loopStep db pm store_ids storeName st item).totals, p.2 ≠ 0 →
      (dget storeName p.1).getD "" ∈
        (loopStep db pm store_ids storeName st item).citems.map (·.store) := by
  intro p hp hpz
  rw [loopStep] at hp ⊢
  cases hx : itemProduct db item with
  | none =>
    rw [hx] at hp
    exact hinv p hp hpz
  | some product =>
    rw [hx] at hp
    dsimp only at hp ⊢
    cases hps : pickStore st.totals (store_ids.filterMap (fun sid =>
        (dget pm (product.id, sid)).map (fun q => (sid, q)))) with
    | none =>
      rw [hps] at hp
      dsimp only at hp ⊢
      by_cases him : item ∈ st.unmatched
      · rw [if_pos him] at hp ⊢
        exact hinv p hp hpz
      · rw [if_neg him] at hp ⊢
        exact hinv p hp hpz
    | some sel =>
      rw [hps] at hp
      dsimp only at hp ⊢
      rcases mem_dset hp with rfl | hmem
      · simp only [List.map_append, List.map_cons]
        exact List.mem_append_right _ (List.mem_cons_self ..)
      · simp only [List.map_append]
        exact List.mem_append_left _ (hinv p hmem hpz)

theorem loopFold_zero (db : DB) (pm : List ((Nat × Nat) × Rat)) (store_ids : List Nat)
    (storeName : List (Nat × String)) (items : List String) (st : LoopState)
    (hinv : ∀ p ∈ st.totals, p.2 ≠ 0 →
      (dget storeName p.1).getD "" ∈ st.citems.map (·.store)) :
    ∀ p ∈ (items.foldl (loopStep db pm store_ids storeName) st).totals, p.2 ≠ 0 →
      (dget storeName p.1).getD "" ∈
        (items.foldl (loopStep db pm store_ids storeName) st).citems.map (·.store) := by
  induction items generalizing st with
  | nil => exact hinv
  | cons item t ih =>
    rw [List.foldl_cons]
    exact ih _ (loopStep_zero db pm store_ids storeName st item hinv)

theorem core_storeTotals (items : List String) (store_objs : List Supermarket) (db : DB)
    (h : store_objs.isEmpty = false) :
    (compareBasketCore items store_objs db).storeTotals.map (·.store)
      = (pydedup (store_objs.map (·.id))).map
          (fun sid => (dget (storeNameMap store_objs) sid).getD "") ∧
    ∀ st ∈ (compareBasketCore items store_objs db).storeTotals,
      st.store ∉ (compareBasketCore items store_objs db).items.map (·.store) →
        st.total = 0 := by
  simp only [compareBasketCore, h, Bool.false_eq_true, if_false]
  set store_ids := store_objs.map (·.id) with hsi
  set pm := pricesMap db ((pydedup items).filterMap (fun it =>
    (itemProduct db it).map (·.id))) store_ids with hpm
  set sn := storeNameMap store_objs with hsn
  set init := LoopState.mk [] (buildDictAux (fun _ => (0 : Rat)) [] store_ids)
    (items.filter (fun it => (itemProduct db it).isNone)) with hinit
  set fin := items.foldl (loopStep db pm store_ids sn) init with hfin
  have hsub : ∀ sid ∈ store_ids, sid ∈ init.totals.map (·.1) := by
    intro sid hs
    rw [hinit]
    show sid ∈ (buildDictAux (fun _ => (0 : Rat)) [] store_ids).map (·.1)
    rw [buildDict_fst]
    exact mem_dedupAux.2 ⟨hs, List.not_mem_nil _⟩
  have hkeys : fin.totals.map (·.1) = dedupAux [] store_ids := by
    rw [hfin, loopFold_keys db pm store_ids sn items init hsub, hinit]
    exact buildDict_fst _ _ _
  constructor
  · show (fin.totals.map (fun p => StoreTotal.mk ((dget sn p.1).getD "") p.2)).map
        (·.store) = (pydedup store_ids).map (fun sid => (dget sn sid).getD "")
    rw [List.map_map]
    calc fin.totals.map ((fun st => st.store) ∘
          (fun p => StoreTotal.mk ((dget sn p.1).getD "") p.2))
        = fin.totals.map ((fun sid => (dget sn sid).getD "") ∘ (·.1)) := rfl
      _ = (fin.totals.map (·.1)).map (fun sid => (dget sn sid).getD "") :=
          (List.map_map ..).symm
      _ = (dedupAux [] store_ids).map (fun sid => (dget sn sid).getD "") := by rw [hkeys]
  · intro st hst hnm
    have hst' : st ∈ fin.totals.map (fun p => StoreTotal.mk ((dget sn p.1).getD "") p.2) :=
      hst
    rcases List.mem_map.1 hst' with ⟨p, hp, rfl⟩
    by_contra hz
    have hbase : ∀ q ∈ init.totals, q.2 ≠ 0 →
        (dget sn q.1).getD "" ∈ init.citems.map (·.store) := by
      intro q hq hqz
      exact absurd (buildDict_mem_val hq) hqz
    have := loopFold_zero db pm store_ids sn items init hbase p (hfin ▸ hp) hz
    exact hnm (hfin ▸ this)

/-- Claim C10: when at least one requested store resolves, `storeTotals` contains
exactly one entry per distinct resolved store, in first-occurrence order, labelled
with the store's name — and a resolved store to which no item was assigned still
appears, with total 0. -/
theorem C10_storeTotals_per_store (req : CompareRequest) (db : DB)
    (h : resolveStores db req.stores ≠ []) :
    (compare_basket req db).storeTotals.map (·.store)
      = (pydedup ((resolveStores db req.stores).map (·.id))).map
          (fun sid => (dget (storeNameMap (resolveStores db req.stores)) sid).getD "") ∧
    ∀ st ∈ (compare_basket req db).storeTotals,
      st.store ∉ (compare_basket req db).items.map (·.store) → st.total = 0 := by
  have h' : (resolveStores db req.stores).isEmpty = false := by
    cases hr : resolveStores db req.stores with
    | nil => exact absurd hr h
    | cons a t => rfl
  rw [compare_basket]
  exact core_storeTotals req.items (resolveStores db req.stores) db h'

/-- Witness for C10 at the tie-break scenario catalog. -/
theorem C10_storeTotals_per_store_witness :
    (compare_basket tieReq tieDb).storeTotals.map (·.store)
      = (pydedup ((resolveStores tieDb tieReq.stores).map (·.id))).map
          (fun sid => (dget (storeNameMap (resolveStores tieDb tieReq.stores)) sid).getD "") :=
  (C10_storeTotals_per_store tieReq tieDb (by decide)).1
